import Mathlib

/-!
Conway's Game of Life over Life 1.06 text: a shallow embedding of `main.go`.

The Go program keeps the population in a `map[Cell]struct{}` (a finite set of
cells) and the per-generation tally in a `map[Cell]int`.  Here the population is
a `Finset Cell`, the tally is the `Multiset Cell` of all tallied neighbour
coordinates (the value stored at a key is its multiplicity), and Go's `int`
(64 bits wide on every platform where `MaxInt64 - dx` type-checks) is `Int`
with explicit two's-complement wrapping.
-/

namespace Life

/-! ## Machine integers -/

/-- Constant `MinInt64 = math.MinInt64`. -/
def MinInt64 : Int := -9223372036854775808

/-- Constant `MaxInt64 = math.MaxInt64`. -/
def MaxInt64 : Int := 9223372036854775807

/-- Two's-complement reduction of an exact integer to the 64-bit signed range. -/
def wrap64 (z : Int) : Int :=
  (z + 9223372036854775808) % 18446744073709551616 - 9223372036854775808

/-- Go's `a + b` on `int`: the exact sum, wrapped. -/
def add64 (a b : Int) : Int := wrap64 (a + b)

/-- Go's `a - b` on `int`: the exact difference, wrapped. -/
def sub64 (a b : Int) : Int := wrap64 (a - b)

/-- The values a Go `int` can hold. -/
def inRange64 (z : Int) : Prop := MinInt64 ≤ z ∧ z ≤ MaxInt64

instance (z : Int) : Decidable (inRange64 z) :=
  inferInstanceAs (Decidable (MinInt64 ≤ z ∧ z ≤ MaxInt64))

/-! ## Data model -/

/-- Cell contains the X, Y coordinates of a cell. -/
structure Cell where
  X : Int
  Y : Int
deriving DecidableEq, Repr

/-- A cell whose two coordinates are representable as Go `int`s. -/
def Cell.inRange (c : Cell) : Prop := inRange64 c.X ∧ inRange64 c.Y

instance (c : Cell) : Decidable c.inRange :=
  inferInstanceAs (Decidable (inRange64 c.X ∧ inRange64 c.Y))

/-- Adjacency of the specification: the two cells differ by at most 1 on each
axis and are not equal. -/
def adjacent (c s : Cell) : Prop :=
  s.X - 1 ≤ c.X ∧ c.X ≤ s.X + 1 ∧ s.Y - 1 ≤ c.Y ∧ c.Y ≤ s.Y + 1 ∧ s ≠ c

instance (c s : Cell) : Decidable (adjacent c s) :=
  inferInstanceAs
    (Decidable (s.X - 1 ≤ c.X ∧ c.X ≤ s.X + 1 ∧ s.Y - 1 ≤ c.Y ∧ c.Y ≤ s.Y + 1 ∧ s ≠ c))

/-! ## Simulation engine -/

/-- The values taken by the loop variables `dx` and `dy`, in loop order. -/
def offsets : List Int := [-1, 0, 1]

/-- Body of the innermost loop of `GameOfLife` for one live cell and one pair
`(dx, dy)`: `none` when one of the three `continue` statements is taken,
otherwise the `neighbor` whose tally is incremented. -/
def neighborAt (cell : Cell) (dx dy : Int) : Option Cell :=
  if dx = 0 ∧ dy = 0 then none
  else if (dx > 0 ∧ cell.X > sub64 MaxInt64 dx) ∨ (dx < 0 ∧ cell.X < sub64 MinInt64 dx) then none
  else if (dy > 0 ∧ cell.Y > sub64 MaxInt64 dy) ∨ (dy < 0 ∧ cell.Y < sub64 MinInt64 dy) then none
  else some ⟨add64 cell.X dx, add64 cell.Y dy⟩

/-- The neighbours tallied for one live cell, in the order of the `dx`, `dy` loops. -/
def cellNeighbors (cell : Cell) : List Cell :=
  offsets.flatMap (fun dx => offsets.filterMap (fun dy => neighborAt cell dx dy))

/-- The map `neighborCounts` after the tally loop. -/
def neighborCounts (liveCells : Finset Cell) : Multiset Cell :=
  liveCells.val.bind (fun cell => (cellNeighbors cell : Multiset Cell))

/-- One pass of the generation loop: `nextGenLiveCells`. -/
def nextGenLiveCells (liveCells : Finset Cell) : Finset Cell :=
  (neighborCounts liveCells).toFinset.filter (fun cell =>
    (cell ∉ liveCells ∧ (neighborCounts liveCells).count cell = 3) ∨
    (cell ∈ liveCells ∧
      ((neighborCounts liveCells).count cell = 2 ∨ (neighborCounts liveCells).count cell = 3)))

/-- The generation loop run `n` times. -/
def generationLoop (liveCells : Finset Cell) : Nat → Finset Cell
  | 0 => liveCells
  | n + 1 => generationLoop (nextGenLiveCells liveCells) n

/-- `GameOfLife(liveCells, generations)`. -/
def GameOfLife (liveCells : Finset Cell) (generations : Int) : Finset Cell :=
  generationLoop liveCells generations.toNat

/-! ## Text: the Go standard-library functions used by the decoder and encoder

A Go `string` is modelled as the list of its Unicode code points. -/

/-- Go's `unicode.IsSpace`: the code points with the White_Space property. -/
def isSpace (c : Char) : Bool :=
  (0x09 ≤ c.toNat && c.toNat ≤ 0x0D) || c.toNat = 0x20 || c.toNat = 0x85 || c.toNat = 0xA0 ||
  c.toNat = 0x1680 || (0x2000 ≤ c.toNat && c.toNat ≤ 0x200A) || c.toNat = 0x2028 ||
  c.toNat = 0x2029 || c.toNat = 0x202F || c.toNat = 0x205F || c.toNat = 0x3000

/-- Go's `strings.TrimSpace`: the text without its leading and trailing white space. -/
def TrimSpace (s : List Char) : List Char :=
  ((s.dropWhile isSpace).reverse.dropWhile isSpace).reverse

/-- The first piece of a text cut at every `sep`, and the pieces after it. -/
def splitAux (sep : Char) : List Char → List Char × List (List Char)
  | [] => ([], [])
  | c :: cs =>
    if c = sep then ([], (splitAux sep cs).1 :: (splitAux sep cs).2)
    else (c :: (splitAux sep cs).1, (splitAux sep cs).2)

/-- Go's `strings.Split(s, sep)` for a one-character separator: the pieces of `s`
between the occurrences of `sep`; the empty text gives one empty piece. -/
def Split (s : List Char) (sep : Char) : List (List Char) :=
  (splitAux sep s).1 :: (splitAux sep s).2

/-- Go's `strings.Join(elems, sep)` for a one-character separator. -/
def Join (sep : Char) : List (List Char) → List Char
  | [] => []
  | [l] => l
  | l :: l' :: ls => l ++ sep :: Join sep (l' :: ls)

/-- The field under construction at the front of a text, and the fields after it. -/
def fieldsAux : List Char → List Char × List (List Char)
  | [] => ([], [])
  | c :: cs =>
    if isSpace c then
      ([], if (fieldsAux cs).1 = [] then (fieldsAux cs).2 else (fieldsAux cs).1 :: (fieldsAux cs).2)
    else (c :: (fieldsAux cs).1, (fieldsAux cs).2)

/-- Go's `strings.Fields`: the maximal runs of non-space characters, in order. -/
def Fields (s : List Char) : List (List Char) :=
  if (fieldsAux s).1 = [] then (fieldsAux s).2 else (fieldsAux s).1 :: (fieldsAux s).2

/-- One step of decimal accumulation: `n*10 + digit`, or failure on a non-digit. -/
def digitStep (acc : Option Nat) (c : Char) : Option Nat :=
  match acc with
  | none => none
  | some n => if 48 ≤ c.toNat ∧ c.toNat ≤ 57 then some (n * 10 + (c.toNat - 48)) else none

/-- The value of a run of ASCII decimal digits, `none` if another character occurs. -/
def parseDigits (s : List Char) : Option Nat := s.foldl digitStep (some 0)

/-- Go's `strconv.Atoi` on a 64-bit platform: an optional sign `+` or `-`, then
one or more ASCII decimal digits, with a value in the `int` range; `none` stands
for a non-nil error (syntax or range). -/
def Atoi (s : List Char) : Option Int :=
  match s with
  | [] => none
  | c :: cs =>
    let ds := if c = '-' ∨ c = '+' then cs else c :: cs
    if ds = [] then none
    else
      match parseDigits ds with
      | none => none
      | some un =>
        if c = '-' then (if un > 9223372036854775808 then none else some (-(un : Int)))
        else (if un ≥ 9223372036854775808 then none else some (un : Int))

/-- The ASCII character of a decimal digit. -/
def digitChar (d : Nat) : Char := Char.ofNat (48 + d)

/-- The decimal digits of `n`, most significant first; `fuel` bounds the number of digits. -/
def natDigits : Nat → Nat → List Char
  | 0, _ => []
  | fuel + 1, n =>
    if n < 10 then [digitChar n] else natDigits fuel (n / 10) ++ [digitChar (n % 10)]

/-- The verb `%d` of Go's `fmt` applied to an integer: a minus sign for a
negative value, then its decimal digits without leading zeros. -/
def formatInt (z : Int) : List Char :=
  if z < 0 then '-' :: natDigits (z.natAbs + 1) z.natAbs else natDigits (z.natAbs + 1) z.natAbs

/-- Go's `fmt.Sprintf("%d %d", x, y)`. -/
def Sprintf (x y : Int) : List Char := formatInt x ++ ' ' :: formatInt y

/-! ## Decoder and encoder -/

/-- The header line `#Life 1.06`. -/
def headerLine : List Char := ['#', 'L', 'i', 'f', 'e', ' ', '1', '.', '0', '6']

/-- The message of the error returned for a missing or incorrect header. -/
def headerError : String := "invalid Life 1.06 format: missing or incorrect header"

/-- Body of the line loop of `ParseLife106String`: the map `liveCells` after one line. -/
def parseLine (liveCells : Finset Cell) (line : List Char) : Finset Cell :=
  match Fields line with
  | [p0, p1] =>
    match Atoi p0, Atoi p1 with
    | some x, some y => insert ⟨x, y⟩ liveCells
    | _, _ => liveCells
  | _ => liveCells

/-- `ParseLife106String`: the returned pair `(population, error)`, with `none`
for Go's `nil` in either component. -/
def ParseLife106String (life106String : List Char) : Option (Finset Cell) × Option String :=
  match Split (TrimSpace life106String) '\n' with
  | [] => (none, some headerError)
  | first :: rest =>
    if first ≠ headerLine then (none, some headerError)
    else (some (rest.foldl parseLine ∅), none)

/-- `GenerateLife106String`, given the cells of the population in the order in
which the `range` loop over the map visits them. -/
def GenerateLife106String (order : List Cell) : List Char :=
  Join '\n' (headerLine :: order.map (fun cell => Sprintf cell.X cell.Y))

/-! ## Populations of the scenarios -/

/-- The L-shaped population `{(0,0), (1,0), (0,1)}`. -/
def lShape : Finset Cell := {⟨0, 0⟩, ⟨1, 0⟩, ⟨0, 1⟩}

/-- The 2x2 block `{(0,0), (1,0), (0,1), (1,1)}`. -/
def block : Finset Cell := {⟨0, 0⟩, ⟨1, 0⟩, ⟨0, 1⟩, ⟨1, 1⟩}

/-- The five cells `{(0,0), (1,0), (2,0), (2,1), (1,2)}` of the glider scenario. -/
def glider : Finset Cell := {⟨0, 0⟩, ⟨1, 0⟩, ⟨2, 0⟩, ⟨2, 1⟩, ⟨1, 2⟩}

/-- The text of the glider scenario. -/
def gliderText : List Char := "#Life 1.06\n0 0\n1 0\n2 0\n2 1\n1 2".toList

/-- The glider shifted by `(+1, +1)`. -/
def gliderUpRight : Finset Cell := {⟨1, 1⟩, ⟨2, 1⟩, ⟨3, 1⟩, ⟨3, 2⟩, ⟨2, 3⟩}

/-- The glider shifted by `(+1, -1)`. -/
def gliderDownRight : Finset Cell := {⟨1, -1⟩, ⟨2, -1⟩, ⟨3, -1⟩, ⟨3, 0⟩, ⟨2, 1⟩}

/-- The cell at the maximum representable coordinate on both axes. -/
def cornerCell : Cell := ⟨MaxInt64, MaxInt64⟩

/-- The text of the malformed-line scenario. -/
def tolerantText : List Char := "#Life 1.06\n1 2\nbad line\n3\n4 5".toList

/-- A text whose first line is not the header. -/
def badHeaderText : List Char := "not a header\n1 2".toList

/-- A population with negative and extreme coordinates, in one iteration order. -/
def sampleOrder : List Cell := [⟨-1, 2⟩, ⟨MaxInt64, MinInt64⟩, ⟨0, 0⟩]

/-! ## Shifted populations and further scenarios -/

/-- The cell moved by the exact offset `(a, b)`. -/
def Cell.shift (a b : Int) (c : Cell) : Cell := ⟨c.X + a, c.Y + b⟩

/-- The population with every cell moved by `(a, b)`. -/
def shiftCells (a b : Int) (S : Finset Cell) : Finset Cell := S.image (Cell.shift a b)

/-- A cell with both coordinates strictly between `MinInt64` and `MaxInt64`. -/
def Cell.interior (c : Cell) : Prop :=
  MinInt64 < c.X ∧ c.X < MaxInt64 ∧ MinInt64 < c.Y ∧ c.Y < MaxInt64

instance (c : Cell) : Decidable c.interior :=
  inferInstanceAs
    (Decidable (MinInt64 < c.X ∧ c.X < MaxInt64 ∧ MinInt64 < c.Y ∧ c.Y < MaxInt64))

/-- The number of cells of `S` adjacent to `c`. -/
def liveNeighbours (S : Finset Cell) (c : Cell) : Nat :=
  (S.filter (fun s => adjacent s c)).card

/-- The single-cell population `{(5,5)}`. -/
def loneCell : Finset Cell := {⟨5, 5⟩}

/-- The single-cell population at the maximum corner of the coordinate range. -/
def loneMaxCorner : Finset Cell := {⟨MaxInt64, MaxInt64⟩}

/-- The single-cell population at the minimum corner. -/
def loneMinCorner : Finset Cell := {⟨MinInt64, MinInt64⟩}

/-- A two-cell population. -/
def domino : Finset Cell := {⟨0, 0⟩, ⟨1, 0⟩}

/-- A text with blank lines and spaces around the header and the last line. -/
def paddedText : List Char := " \n\t#Life 1.06\n1 2\n-3 4 \r\n \n".toList

/-- The text `paddedText` without the white space at its two ends. -/
def unpaddedText : List Char := "#Life 1.06\n1 2\n-3 4".toList

/-- A text whose body has tokens just outside and just inside the `int` range. -/
def overflowText : List Char :=
  ("#Life 1.06\n9223372036854775808 0\n1 2\n0 -9223372036854775809\n" ++
    "9223372036854775807 -9223372036854775808").toList

/-- The cells of `overflowText` whose tokens are in range, last line first. -/
def overflowCells : Finset Cell := insert ⟨MaxInt64, MinInt64⟩ {⟨1, 2⟩}

/-- The body `1 2` after a header line that ends in a carriage return. -/
def crlfBody : List Char := "1 2\r\n".toList

/-! ## Engine: neighbour enumeration -/

theorem wrap64_of_inRange {z : Int} (h : inRange64 z) : wrap64 z = z := by
  unfold inRange64 MinInt64 MaxInt64 at h
  unfold wrap64
  omega

theorem neighborAt_exact (cell : Cell) (dx dy : Int) (h : cell.inRange)
    (hdx : dx ∈ offsets) (hdy : dy ∈ offsets) :
    neighborAt cell dx dy =
      if (dx = 0 ∧ dy = 0) ∨ ¬ inRange64 (cell.X + dx) ∨ ¬ inRange64 (cell.Y + dy) then none
      else some ⟨cell.X + dx, cell.Y + dy⟩ := by
  obtain ⟨⟨hx1, hx2⟩, hy1, hy2⟩ := h
  unfold MinInt64 at hx1 hy1
  unfold MaxInt64 at hx2 hy2
  simp only [offsets, List.mem_cons, List.mem_singleton, List.not_mem_nil, or_false] at hdx hdy
  rcases hdx with rfl | rfl | rfl <;> rcases hdy with rfl | rfl | rfl <;>
    simp only [neighborAt, sub64, add64, wrap64, inRange64, MinInt64, MaxInt64] <;>
    norm_num <;>
    split_ifs <;> simp_all <;> omega


theorem flatMap_filterMap_product {α β γ : Type} (f : α → β → Option γ) (l : List α)
    (l' : List β) :
    l.flatMap (fun a => l'.filterMap (f a)) = (l.product l').filterMap (fun d => f d.1 d.2) := by
  induction l with
  | nil => rfl
  | cons a l ih =>
    have hprod : (a :: l).product l' = l'.map (Prod.mk a) ++ l.product l' := rfl
    rw [List.flatMap_cons, ih, hprod, List.filterMap_append, List.filterMap_map]
    rfl

theorem cellNeighbors_eq_filterMap (s : Cell) :
    cellNeighbors s = (offsets.product offsets).filterMap (fun d => neighborAt s d.1 d.2) :=
  flatMap_filterMap_product (neighborAt s) offsets offsets

theorem neighborAt_some (s c : Cell) (dx dy : Int) (hs : s.inRange)
    (hdx : dx ∈ offsets) (hdy : dy ∈ offsets) :
    neighborAt s dx dy = some c ↔
      ¬ (dx = 0 ∧ dy = 0) ∧ inRange64 (s.X + dx) ∧ inRange64 (s.Y + dy) ∧
        c = ⟨s.X + dx, s.Y + dy⟩ := by
  rw [neighborAt_exact s dx dy hs hdx hdy]
  split_ifs with h
  · simp only [reduceCtorEq, false_iff]
    rintro ⟨h0, hx, hy, -⟩
    rcases h with h | h | h
    · exact h0 h
    · exact h hx
    · exact h hy
  · simp only [not_or, not_not] at h
    simp only [Option.some.injEq]
    constructor
    · rintro rfl
      exact ⟨h.1, h.2.1, h.2.2, rfl⟩
    · rintro ⟨-, -, -, rfl⟩
      rfl

theorem neighborAt_some_iff (s c : Cell) (dx dy : Int) (hs : s.inRange) (hc : c.inRange)
    (hdx : dx ∈ offsets) (hdy : dy ∈ offsets) :
    neighborAt s dx dy = some c ↔ ¬ (dx = 0 ∧ dy = 0) ∧ c.X = s.X + dx ∧ c.Y = s.Y + dy := by
  rw [neighborAt_some s c dx dy hs hdx hdy]
  obtain ⟨a, b⟩ := c
  simp only [Cell.mk.injEq]
  constructor
  · rintro ⟨h0, -, -, hX, hY⟩
    exact ⟨h0, hX, hY⟩
  · rintro ⟨h0, hX, hY⟩
    subst hX hY
    exact ⟨h0, hc.1, hc.2, rfl, rfl⟩

theorem mem_cellNeighbors_iff (s c : Cell) (hs : s.inRange) (hc : c.inRange) :
    c ∈ cellNeighbors s ↔ adjacent c s := by
  rw [cellNeighbors_eq_filterMap, List.mem_filterMap]
  constructor
  · rintro ⟨⟨dx, dy⟩, hd, h⟩
    obtain ⟨hdx, hdy⟩ := List.mem_product.1 hd
    obtain ⟨h0, hX, hY⟩ := (neighborAt_some_iff s c dx dy hs hc hdx hdy).1 h
    simp only [offsets, List.mem_cons, List.mem_singleton, List.not_mem_nil, or_false] at hdx hdy
    refine ⟨by omega, by omega, by omega, by omega, ?_⟩
    rintro rfl
    exact h0 ⟨by omega, by omega⟩
  · rintro ⟨h1, h2, h3, h4, hne⟩
    refine ⟨(c.X - s.X, c.Y - s.Y), ?_, ?_⟩
    · refine List.mem_product.2 ?_
      simp only [offsets, List.mem_cons, List.mem_singleton, List.not_mem_nil, or_false]
      constructor <;> omega
    · have hdx : c.X - s.X ∈ offsets := by
        simp only [offsets, List.mem_cons, List.mem_singleton, List.not_mem_nil, or_false]; omega
      have hdy : c.Y - s.Y ∈ offsets := by
        simp only [offsets, List.mem_cons, List.mem_singleton, List.not_mem_nil, or_false]; omega
      rw [neighborAt_some_iff s c _ _ hs hc hdx hdy]
      refine ⟨?_, by omega, by omega⟩
      rintro ⟨hx, hy⟩
      apply hne
      obtain ⟨x, y⟩ := s
      obtain ⟨a, b⟩ := c
      simp only [Cell.mk.injEq] at hx hy ⊢
      constructor <;> omega

theorem nodup_cellNeighbors (s : Cell) (hs : s.inRange) : (cellNeighbors s).Nodup := by
  rw [cellNeighbors_eq_filterMap, List.Nodup, List.pairwise_filterMap]
  have hnd : (offsets.product offsets).Pairwise (fun a b => a ≠ b) := by decide
  refine List.Pairwise.imp_of_mem ?_ hnd
  rintro ⟨dx, dy⟩ ⟨dx', dy'⟩ hd hd' hne b hb b' hb' rfl
  obtain ⟨hdx, hdy⟩ := List.mem_product.1 hd
  obtain ⟨hdx', hdy'⟩ := List.mem_product.1 hd'
  obtain ⟨-, -, -, e⟩ := (neighborAt_some s b dx dy hs hdx hdy).1 (Option.mem_def.1 hb)
  obtain ⟨-, -, -, e'⟩ := (neighborAt_some s b dx' dy' hs hdx' hdy').1 (Option.mem_def.1 hb')
  rw [e, Cell.mk.injEq] at e'
  apply hne
  simp only [Prod.mk.injEq]
  constructor <;> omega

theorem count_cellNeighbors (s c : Cell) (hs : s.inRange) (hc : c.inRange) :
    (cellNeighbors s).count c = if adjacent c s then 1 else 0 := by
  split_ifs with h
  · exact List.count_eq_one_of_mem (nodup_cellNeighbors s hs)
      ((mem_cellNeighbors_iff s c hs hc).2 h)
  · exact List.count_eq_zero_of_not_mem (fun hm => h ((mem_cellNeighbors_iff s c hs hc).1 hm))

theorem count_neighborCounts (S : Finset Cell) (c : Cell) (hS : ∀ s ∈ S, s.inRange)
    (hc : c.inRange) :
    (neighborCounts S).count c = (S.filter (fun s => adjacent c s)).card := by
  unfold neighborCounts
  rw [Multiset.count_bind, Finset.card_filter]
  rw [Finset.sum, ← Multiset.map_congr rfl]
  intro s hs
  rw [Multiset.coe_count]
  exact (count_cellNeighbors s c (hS s hs) hc).symm

/-! ## Text lemmas -/

theorem dropWhile_eq_self_of_head (p : Char → Bool) (c : Char) (cs : List Char)
    (h : p c = false) : (c :: cs).dropWhile p = c :: cs := by
  simp [List.dropWhile, h]

theorem TrimSpace_eq_self (c d : Char) (mid : List Char) (hc : isSpace c = false)
    (hd : isSpace d = false) : TrimSpace (c :: (mid ++ [d])) = c :: (mid ++ [d]) := by
  unfold TrimSpace
  rw [dropWhile_eq_self_of_head isSpace c _ hc]
  have hrev : (c :: (mid ++ [d])).reverse = d :: (mid.reverse ++ [c]) := by simp
  rw [hrev, dropWhile_eq_self_of_head isSpace d _ hd, ← hrev, List.reverse_reverse]

theorem splitAux_of_not_mem (sep : Char) (l : List Char) (h : sep ∉ l) :
    splitAux sep l = (l, []) := by
  induction l with
  | nil => rfl
  | cons c cs ih =>
    have hc : c ≠ sep := fun e => h (e ▸ List.mem_cons_self _ _)
    have hcs : sep ∉ cs := fun e => h (List.mem_cons_of_mem _ e)
    simp [splitAux, hc, ih hcs]

theorem splitAux_append_sep (sep : Char) (l r : List Char) (h : sep ∉ l) :
    splitAux sep (l ++ sep :: r) = (l, (splitAux sep r).1 :: (splitAux sep r).2) := by
  induction l with
  | nil => simp [splitAux]
  | cons c cs ih =>
    have hc : c ≠ sep := fun e => h (e ▸ List.mem_cons_self _ _)
    have hcs : sep ∉ cs := fun e => h (List.mem_cons_of_mem _ e)
    simp [splitAux, hc, ih hcs]

theorem Split_Join (sep : Char) (l : List Char) (ls : List (List Char))
    (h : ∀ x ∈ l :: ls, sep ∉ x) : Split (Join sep (l :: ls)) sep = l :: ls := by
  induction ls generalizing l with
  | nil =>
    simp only [Join, Split]
    rw [splitAux_of_not_mem sep l (h l (List.mem_cons_self _ _))]
  | cons l' ls ih =>
    have hl : sep ∉ l := h l (List.mem_cons_self _ _)
    have ih' := ih l' (fun x hx => h x (List.mem_cons_of_mem _ hx))
    simp only [Join, Split] at ih' ⊢
    rw [splitAux_append_sep sep l _ hl]
    simp only [ih']

theorem fieldsAux_append (w rest : List Char) (hw : ∀ c ∈ w, isSpace c = false) :
    fieldsAux (w ++ rest) = (w ++ (fieldsAux rest).1, (fieldsAux rest).2) := by
  induction w with
  | nil => rfl
  | cons c cs ih =>
    have hc : isSpace c = false := hw c (List.mem_cons_self _ _)
    have ih' := ih (fun x hx => hw x (List.mem_cons_of_mem _ hx))
    simp [fieldsAux, hc, ih']

theorem Fields_two (w1 w2 : List Char) (h1 : ∀ c ∈ w1, isSpace c = false)
    (h2 : ∀ c ∈ w2, isSpace c = false) (n1 : w1 ≠ []) (n2 : w2 ≠ []) :
    Fields (w1 ++ ' ' :: w2) = [w1, w2] := by
  have e2 : fieldsAux w2 = (w2, []) := by
    have := fieldsAux_append w2 [] h2
    simpa [fieldsAux] using this
  have e : fieldsAux (w1 ++ ' ' :: w2) = (w1, [w2]) := by
    rw [fieldsAux_append w1 _ h1]
    have hsp : isSpace ' ' = true := by decide
    simp [fieldsAux, hsp, e2, n2]
  simp [Fields, e, n1]

theorem digitChar_toNat (d : Nat) (h : d < 10) : (digitChar d).toNat = 48 + d := by
  interval_cases d <;> rfl

theorem natDigits_ne_nil (fuel n : Nat) : natDigits (fuel + 1) n ≠ [] := by
  unfold natDigits
  split_ifs <;> simp

theorem natDigits_digit (fuel n : Nat) :
    ∀ c ∈ natDigits fuel n, 48 ≤ c.toNat ∧ c.toNat ≤ 57 := by
  induction fuel generalizing n with
  | zero => intro c hc; simp [natDigits] at hc
  | succ fuel ih =>
    intro c hc
    unfold natDigits at hc
    split_ifs at hc with hn
    · rw [List.mem_singleton] at hc
      rw [hc, digitChar_toNat n hn]
      omega
    · rw [List.mem_append, List.mem_singleton] at hc
      rcases hc with hc | hc
      · exact ih (n / 10) c hc
      · rw [hc, digitChar_toNat (n % 10) (Nat.mod_lt _ (by decide))]
        omega

theorem foldl_digitStep_natDigits (fuel n a : Nat) (h : n < fuel) :
    (natDigits fuel n).foldl digitStep (some a) =
      some (a * 10 ^ (natDigits fuel n).length + n) := by
  induction fuel generalizing n a with
  | zero => omega
  | succ fuel ih =>
    unfold natDigits
    split_ifs with hn
    · simp only [List.foldl_cons, List.foldl_nil, digitStep, List.length_singleton, pow_one]
      rw [digitChar_toNat n hn]
      simp
      omega
    · have hlt : n / 10 < fuel := by omega
      rw [List.foldl_append, ih (n / 10) a hlt]
      simp only [List.foldl_cons, List.foldl_nil, digitStep, List.length_append,
        List.length_singleton]
      rw [digitChar_toNat (n % 10) (Nat.mod_lt _ (by decide))]
      simp only [Nat.le_add_right, true_and, Nat.add_sub_cancel_left]
      rw [if_pos (by omega)]
      congr 1
      rw [pow_succ]
      have := Nat.div_add_mod n 10
      nlinarith [Nat.div_add_mod n 10]

theorem parseDigits_natDigits (n : Nat) : parseDigits (natDigits (n + 1) n) = some n := by
  unfold parseDigits
  rw [foldl_digitStep_natDigits (n + 1) n 0 (Nat.lt_succ_self n)]
  simp

theorem digit_isSpace (c : Char) (h : 48 ≤ c.toNat ∧ c.toNat ≤ 57) : isSpace c = false := by
  unfold isSpace
  simp only [Bool.or_eq_false_iff, Bool.and_eq_false_iff, decide_eq_false_iff_not]
  omega


/-- The library models on sample inputs: signs, empty and non-numeric tokens,
the two ends of the `int` range, white-space runs and empty pieces. -/
theorem library_samples :
    Atoi "+5".toList = some 5 ∧ Atoi "-0".toList = some 0 ∧ Atoi "007".toList = some 7 ∧
    Atoi [] = none ∧ Atoi "-".toList = none ∧ Atoi "1_0".toList = none ∧
    Atoi " 1".toList = none ∧ Atoi "1.0".toList = none ∧
    Atoi "9223372036854775807".toList = some MaxInt64 ∧
    Atoi "9223372036854775808".toList = none ∧
    Atoi "-9223372036854775808".toList = some MinInt64 ∧
    Atoi "-9223372036854775809".toList = none ∧
    formatInt MinInt64 = "-9223372036854775808".toList ∧ formatInt 0 = ['0'] ∧
    Fields " a \t bc\rd ".toList = [['a'], ['b', 'c'], ['d']] ∧ Fields "  ".toList = [] ∧
    Split [] '\n' = [[]] ∧ Split "a\n\nb\n".toList '\n' = [['a'], [], ['b'], []] ∧
    TrimSpace " \n a b\r\n".toList = ['a', ' ', 'b'] ∧ TrimSpace " \n ".toList = [] ∧
    Join '\n' [['a'], [], ['b']] = "a\n\nb".toList := by
  decide

theorem digit_ne_sign (c : Char) (h : 48 ≤ c.toNat ∧ c.toNat ≤ 57) : ¬ (c = '-' ∨ c = '+') := by
  rintro (rfl | rfl)
  · exact absurd h (by decide)
  · exact absurd h (by decide)

theorem Atoi_formatInt (z : Int) (hz : inRange64 z) : Atoi (formatInt z) = some z := by
  obtain ⟨h1, h2⟩ := hz
  unfold MinInt64 at h1
  unfold MaxInt64 at h2
  unfold formatInt
  split_ifs with hneg
  · have hp := parseDigits_natDigits z.natAbs
    have hne := natDigits_ne_nil z.natAbs z.natAbs
    simp only [Atoi, true_or, if_true, hne, if_false, hp]
    rw [if_neg (by omega)]
    congr 1
    omega
  · have hp := parseDigits_natDigits z.natAbs
    have hne := natDigits_ne_nil z.natAbs z.natAbs
    have hdig := natDigits_digit (z.natAbs + 1) z.natAbs
    revert hp hne hdig
    cases natDigits (z.natAbs + 1) z.natAbs with
    | nil => intro _ hne _; exact absurd rfl hne
    | cons c cs =>
      intro hp _ hdig
      have hc := digit_ne_sign c (hdig c (List.mem_cons_self _ _))
      have hc' : c ≠ '-' := fun e => hc (Or.inl e)
      have hc'' : c ≠ '+' := fun e => hc (Or.inr e)
      simp only [Atoi, or_self, if_false, hp, hc', hc'', reduceCtorEq]
      rw [if_neg (by omega)]
      congr 1
      omega

theorem formatInt_ne_nil (z : Int) : formatInt z ≠ [] := by
  unfold formatInt
  split_ifs
  · simp
  · exact natDigits_ne_nil _ _

theorem formatInt_chars (z : Int) :
    ∀ c ∈ formatInt z, c = '-' ∨ (48 ≤ c.toNat ∧ c.toNat ≤ 57) := by
  intro c hc
  unfold formatInt at hc
  split_ifs at hc
  · rw [List.mem_cons] at hc
    rcases hc with hc | hc
    · exact Or.inl hc
    · exact Or.inr (natDigits_digit _ _ c hc)
  · exact Or.inr (natDigits_digit _ _ c hc)

theorem formatInt_isSpace (z : Int) : ∀ c ∈ formatInt z, isSpace c = false := by
  intro c hc
  rcases formatInt_chars z c hc with rfl | h
  · decide
  · exact digit_isSpace c h

theorem natDigits_last (fuel n : Nat) :
    ∃ init d, natDigits (fuel + 1) n = init ++ [d] ∧ 48 ≤ d.toNat ∧ d.toNat ≤ 57 := by
  unfold natDigits
  split_ifs with hn
  · refine ⟨[], digitChar n, rfl, ?_⟩
    rw [digitChar_toNat n hn]
    omega
  · refine ⟨_, digitChar (n % 10), rfl, ?_⟩
    rw [digitChar_toNat (n % 10) (Nat.mod_lt _ (by decide))]
    omega

theorem formatInt_last (z : Int) :
    ∃ init d, formatInt z = init ++ [d] ∧ isSpace d = false := by
  obtain ⟨init, d, e, hd⟩ := natDigits_last z.natAbs z.natAbs
  unfold formatInt
  split_ifs
  · exact ⟨'-' :: init, d, by rw [e]; rfl, digit_isSpace d hd⟩
  · exact ⟨init, d, e, digit_isSpace d hd⟩

theorem Sprintf_no_newline (x y : Int) : '\n' ∉ Sprintf x y := by
  intro h
  unfold Sprintf at h
  rw [List.mem_append, List.mem_cons] at h
  have key : ∀ z : Int, '\n' ∉ formatInt z := by
    intro z hz
    have := formatInt_isSpace z _ hz
    exact absurd this (by decide)
  rcases h with h | h | h
  · exact key x h
  · exact absurd h (by decide)
  · exact key y h

theorem Sprintf_last (x y : Int) :
    ∃ init d, Sprintf x y = init ++ [d] ∧ isSpace d = false := by
  obtain ⟨init, d, e, hd⟩ := formatInt_last y
  refine ⟨formatInt x ++ ' ' :: init, d, ?_, hd⟩
  unfold Sprintf
  rw [e]
  simp

theorem parseLine_Sprintf (acc : Finset Cell) (cell : Cell) (h : cell.inRange) :
    parseLine acc (Sprintf cell.X cell.Y) = insert cell acc := by
  unfold parseLine Sprintf
  rw [Fields_two _ _ (formatInt_isSpace _) (formatInt_isSpace _) (formatInt_ne_nil _)
    (formatInt_ne_nil _)]
  simp only [Atoi_formatInt _ h.1, Atoi_formatInt _ h.2]

theorem foldl_parseLine_Sprintf (order : List Cell) (acc : Finset Cell)
    (h : ∀ c ∈ order, c.inRange) :
    (order.map (fun cell => Sprintf cell.X cell.Y)).foldl parseLine acc =
      order.toFinset ∪ acc := by
  induction order generalizing acc with
  | nil => simp
  | cons c cs ih =>
    rw [List.map_cons, List.foldl_cons, parseLine_Sprintf acc c (h c (List.mem_cons_self _ _)),
      ih _ (fun x hx => h x (List.mem_cons_of_mem _ hx))]
    ext x
    simp only [Finset.mem_union, List.mem_toFinset, Finset.mem_insert, List.mem_cons]
    tauto

theorem Join_last (sep : Char) (l : List Char) (ls : List (List Char))
    (h : ∀ x ∈ l :: ls, ∃ init d, x = init ++ [d] ∧ isSpace d = false) :
    ∃ init d, Join sep (l :: ls) = init ++ [d] ∧ isSpace d = false := by
  induction ls generalizing l with
  | nil => exact h l (List.mem_cons_self _ _)
  | cons l' ls ih =>
    obtain ⟨init, d, e, hd⟩ := ih l' (fun x hx => h x (List.mem_cons_of_mem _ hx))
    refine ⟨l ++ sep :: init, d, ?_, hd⟩
    simp only [Join] at e ⊢
    rw [e]
    simp

theorem TrimSpace_Generate (order : List Cell) :
    TrimSpace (GenerateLife106String order) = GenerateLife106String order := by
  have hlast : ∃ init d, GenerateLife106String order = init ++ [d] ∧ isSpace d = false := by
    unfold GenerateLife106String
    apply Join_last
    intro x hx
    rw [List.mem_cons, List.mem_map] at hx
    rcases hx with rfl | ⟨c, -, rfl⟩
    · exact ⟨['#', 'L', 'i', 'f', 'e', ' ', '1', '.', '0'], '6', rfl, by decide⟩
    · exact Sprintf_last c.X c.Y
  have hhead : ∃ tl, GenerateLife106String order = '#' :: tl := by
    unfold GenerateLife106String
    cases order with
    | nil => exact ⟨_, rfl⟩
    | cons c cs => exact ⟨_, rfl⟩
  obtain ⟨init, d, e, hd⟩ := hlast
  obtain ⟨tl, e'⟩ := hhead
  rw [e]
  cases init with
  | nil =>
    rw [e] at e'
    simp only [List.nil_append, List.cons.injEq] at e'
    obtain ⟨rfl, rfl⟩ := e'
    decide
  | cons c mid =>
    rw [e] at e'
    simp only [List.cons_append, List.cons.injEq] at e'
    obtain ⟨rfl, -⟩ := e'
    exact TrimSpace_eq_self '#' d mid (by decide) hd

theorem Parse_Generate (order : List Cell) (h : ∀ c ∈ order, c.inRange) :
    ParseLife106String (GenerateLife106String order) = (some order.toFinset, none) := by
  unfold ParseLife106String
  rw [TrimSpace_Generate]
  have hs : Split (GenerateLife106String order) '\n' =
      headerLine :: order.map (fun cell => Sprintf cell.X cell.Y) := by
    unfold GenerateLife106String
    apply Split_Join
    intro x hx
    rw [List.mem_cons, List.mem_map] at hx
    rcases hx with rfl | ⟨c, -, rfl⟩
    · decide
    · exact Sprintf_no_newline c.X c.Y
  rw [hs]
  simp only [ne_eq, not_true_eq_false, if_false]
  rw [foldl_parseLine_Sprintf order ∅ h, Finset.union_empty]

/-! ## Engine: the generation loop -/

theorem generationLoop_eq_iterate (S : Finset Cell) (n : Nat) :
    generationLoop S n = Nat.iterate nextGenLiveCells n S := by
  induction n generalizing S with
  | zero => rfl
  | succ n ih => exact ih (nextGenLiveCells S)

theorem generationLoop_add (S : Finset Cell) (m n : Nat) :
    generationLoop S (m + n) = generationLoop (generationLoop S m) n := by
  induction m generalizing S with
  | zero => rw [Nat.zero_add]; rfl
  | succ m ih =>
    have h : m + 1 + n = (m + n) + 1 := by omega
    rw [h]
    exact ih (nextGenLiveCells S)

theorem adjacent_comm (c s : Cell) : adjacent c s ↔ adjacent s c := by
  unfold adjacent
  constructor <;>
  · rintro ⟨h1, h2, h3, h4, h5⟩
    exact ⟨by omega, by omega, by omega, by omega, fun h => h5 h.symm⟩

theorem mem_nextGenLiveCells_iff (S : Finset Cell) (c : Cell) (hS : ∀ s ∈ S, s.inRange)
    (hc : c.inRange) :
    c ∈ nextGenLiveCells S ↔
      (c ∉ S ∧ (S.filter (fun s => adjacent s c)).card = 3) ∨
      (c ∈ S ∧ ((S.filter (fun s => adjacent s c)).card = 2 ∨
        (S.filter (fun s => adjacent s c)).card = 3)) := by
  have hfilter : S.filter (fun s => adjacent s c) = S.filter (fun s => adjacent c s) :=
    Finset.filter_congr (fun s _ => adjacent_comm s c)
  rw [hfilter, ← count_neighborCounts S c hS hc]
  unfold nextGenLiveCells
  rw [Finset.mem_filter, Multiset.mem_toFinset, ← Multiset.one_le_count_iff_mem]
  constructor
  · rintro ⟨-, h⟩
    exact h
  · intro h
    refine ⟨?_, h⟩
    rcases h with ⟨-, h⟩ | ⟨-, h | h⟩ <;> omega

/-! ## Engine: claims -/

/-- C1: one generation implements Conway's rule. For every population `S` of
cells with int64 coordinates and every cell `c` with int64 coordinates, `c` is in
`GameOfLife(S, 1)` if and only if either `c` is not in `S` and exactly 3 cells of
`S` are adjacent to `c`, or `c` is in `S` and exactly 2 or exactly 3 cells of `S`
are adjacent to `c`. -/
theorem GameOfLife_one_conway (S : Finset Cell) (c : Cell) (hS : ∀ s ∈ S, s.inRange)
    (hc : c.inRange) :
    c ∈ GameOfLife S 1 ↔
      (c ∉ S ∧ (S.filter (fun s => adjacent s c)).card = 3) ∨
      (c ∈ S ∧ ((S.filter (fun s => adjacent s c)).card = 2 ∨
        (S.filter (fun s => adjacent s c)).card = 3)) :=
  mem_nextGenLiveCells_iff S c hS hc

/-- Witness of C1 at the L-shaped population and the cell `(1, 1)`. -/
theorem GameOfLife_one_conway_witness :
    ((∀ s ∈ lShape, s.inRange) ∧ (⟨1, 1⟩ : Cell).inRange) ∧
    ((⟨1, 1⟩ : Cell) ∈ GameOfLife lShape 1 ↔
      ((⟨1, 1⟩ : Cell) ∉ lShape ∧ (lShape.filter (fun s => adjacent s ⟨1, 1⟩)).card = 3) ∨
      ((⟨1, 1⟩ : Cell) ∈ lShape ∧ ((lShape.filter (fun s => adjacent s ⟨1, 1⟩)).card = 2 ∨
        (lShape.filter (fun s => adjacent s ⟨1, 1⟩)).card = 3))) :=
  ⟨⟨by decide, by decide⟩, GameOfLife_one_conway lShape ⟨1, 1⟩ (by decide) (by decide)⟩

/-- C3: overflow guard. For a live cell with int64 coordinates and an offset
`(dx, dy)` in `{-1,0,1}^2` other than `(0,0)`, the neighbour is tallied if and only
if both exact sums `x+dx` and `y+dy` lie in `[MinInt64, MaxInt64]`; a tallied
coordinate is the exact sum; and whenever a guard expression `MaxInt64-dx` or
`MinInt64-dx` is evaluated (the other conjunct of its `&&` holds), the machine
result is the exact difference, which is in range. -/
theorem neighborAt_overflow_guard (cell : Cell) (dx dy : Int) (hcell : cell.inRange)
    (hdx : dx ∈ offsets) (hdy : dy ∈ offsets) (h0 : ¬ (dx = 0 ∧ dy = 0)) :
    ((∃ n, neighborAt cell dx dy = some n) ↔
      inRange64 (cell.X + dx) ∧ inRange64 (cell.Y + dy)) ∧
    (∀ n, neighborAt cell dx dy = some n → n = ⟨cell.X + dx, cell.Y + dy⟩) ∧
    ((⟨cell.X + dx, cell.Y + dy⟩ : Cell) ∈ cellNeighbors cell ↔
      inRange64 (cell.X + dx) ∧ inRange64 (cell.Y + dy)) ∧
    (0 < dx → sub64 MaxInt64 dx = MaxInt64 - dx ∧ inRange64 (MaxInt64 - dx)) ∧
    (dx < 0 → sub64 MinInt64 dx = MinInt64 - dx ∧ inRange64 (MinInt64 - dx)) ∧
    (0 < dy → sub64 MaxInt64 dy = MaxInt64 - dy ∧ inRange64 (MaxInt64 - dy)) ∧
    (dy < 0 → sub64 MinInt64 dy = MinInt64 - dy ∧ inRange64 (MinInt64 - dy)) := by
  have hguard : ∀ d : Int, d ∈ offsets →
      (0 < d → sub64 MaxInt64 d = MaxInt64 - d ∧ inRange64 (MaxInt64 - d)) ∧
      (d < 0 → sub64 MinInt64 d = MinInt64 - d ∧ inRange64 (MinInt64 - d)) := by
    intro d hd
    simp only [offsets, List.mem_cons, List.mem_singleton, List.not_mem_nil, or_false] at hd
    rcases hd with rfl | rfl | rfl <;> decide
  refine ⟨?_, ?_, ?_, (hguard dx hdx).1, (hguard dx hdx).2, (hguard dy hdy).1,
    (hguard dy hdy).2⟩
  · constructor
    · rintro ⟨n, hn⟩
      obtain ⟨-, hx, hy, -⟩ := (neighborAt_some cell n dx dy hcell hdx hdy).1 hn
      exact ⟨hx, hy⟩
    · rintro ⟨hx, hy⟩
      exact ⟨_, (neighborAt_some cell _ dx dy hcell hdx hdy).2 ⟨h0, hx, hy, rfl⟩⟩
  · intro n hn
    exact ((neighborAt_some cell n dx dy hcell hdx hdy).1 hn).2.2.2
  · rw [cellNeighbors_eq_filterMap, List.mem_filterMap]
    constructor
    · rintro ⟨⟨dx', dy'⟩, hd, h⟩
      obtain ⟨hdx', hdy'⟩ := List.mem_product.1 hd
      obtain ⟨-, hx, hy, e⟩ := (neighborAt_some cell _ dx' dy' hcell hdx' hdy').1 h
      rw [Cell.mk.injEq] at e
      rw [e.1, e.2]
      exact ⟨hx, hy⟩
    · rintro ⟨hx, hy⟩
      exact ⟨(dx, dy), List.mem_product.2 ⟨hdx, hdy⟩,
        (neighborAt_some cell _ dx dy hcell hdx hdy).2 ⟨h0, hx, hy, rfl⟩⟩

/-- Witness of C3 at the cell `(MinInt64, 5)` and the offset `(-1, 1)`, whose
neighbour is out of range on the X axis. -/
theorem neighborAt_overflow_guard_witness :
    ((⟨MinInt64, 5⟩ : Cell).inRange ∧ (-1 : Int) ∈ offsets ∧ (1 : Int) ∈ offsets ∧
      ¬ ((-1 : Int) = 0 ∧ (1 : Int) = 0)) ∧
    ¬ (∃ n, neighborAt ⟨MinInt64, 5⟩ (-1) 1 = some n) :=
  ⟨⟨by decide, by decide, by decide, by decide⟩, fun h =>
    absurd ((neighborAt_overflow_guard ⟨MinInt64, 5⟩ (-1) 1 (by decide) (by decide)
      (by decide) (by decide)).1.1 h).1 (by decide)⟩

/-- C7: `GameOfLife` applies the single-generation transition exactly
`generations` times: for `m, n ≥ 0`, `GameOfLife(S, m + n) =
GameOfLife(GameOfLife(S, m), n)`, in particular `GameOfLife(S, n + 1) =
GameOfLife(GameOfLife(S, n), 1)`, and `GameOfLife(S, n)` is the `n`-fold iterate
of the transition. -/
theorem GameOfLife_add (S : Finset Cell) (m n : Int) (hm : 0 ≤ m) (hn : 0 ≤ n) :
    GameOfLife S (m + n) = GameOfLife (GameOfLife S m) n ∧
    GameOfLife S (n + 1) = GameOfLife (GameOfLife S n) 1 ∧
    GameOfLife S n = Nat.iterate nextGenLiveCells n.toNat S := by
  unfold GameOfLife
  refine ⟨?_, ?_, generationLoop_eq_iterate S n.toNat⟩
  · rw [Int.toNat_add hm hn]
    exact generationLoop_add S m.toNat n.toNat
  · rw [Int.toNat_add hn (by decide)]
    exact generationLoop_add S n.toNat 1

/-- Witness of C7 at the glider with `m = 1` and `n = 2`. -/
theorem GameOfLife_add_witness :
    ((0 : Int) ≤ 1 ∧ (0 : Int) ≤ 2) ∧
    (GameOfLife glider (1 + 2) = GameOfLife (GameOfLife glider 1) 2 ∧
     GameOfLife glider (2 + 1) = GameOfLife (GameOfLife glider 2) 1 ∧
     GameOfLife glider 2 = Nat.iterate nextGenLiveCells (2 : Int).toNat glider) :=
  ⟨⟨by decide, by decide⟩, GameOfLife_add glider 1 2 (by decide) (by decide)⟩

/-- C8: zero generations is the identity: `GameOfLife(S, 0) = S`. -/
theorem GameOfLife_zero (S : Finset Cell) : GameOfLife S 0 = S := rfl

/-- C9: boundary non-overflow. For the population `{(MaxInt64, MaxInt64)}` the
neighbour enumeration omits exactly the 5 offsets with `dx = +1` or `dy = +1`,
tallies exactly the 3 in-range neighbours, each with count 1, no tallied
coordinate is negative, and one step returns the empty population. -/
theorem corner_boundary :
    (∀ dx ∈ offsets, ∀ dy ∈ offsets, ¬ (dx = 0 ∧ dy = 0) →
      (neighborAt cornerCell dx dy = none ↔ dx = 1 ∨ dy = 1)) ∧
    ((offsets.product offsets).filter
      (fun d => ¬ (d.1 = 0 ∧ d.2 = 0) ∧ neighborAt cornerCell d.1 d.2 = none)) =
      [(-1, 1), (0, 1), (1, -1), (1, 0), (1, 1)] ∧
    cellNeighbors cornerCell =
      [⟨MaxInt64 - 1, MaxInt64 - 1⟩, ⟨MaxInt64 - 1, MaxInt64⟩, ⟨MaxInt64, MaxInt64 - 1⟩] ∧
    neighborCounts {cornerCell} =
      {⟨MaxInt64 - 1, MaxInt64 - 1⟩, ⟨MaxInt64 - 1, MaxInt64⟩, ⟨MaxInt64, MaxInt64 - 1⟩} ∧
    (∀ c ∈ neighborCounts {cornerCell},
      (neighborCounts {cornerCell}).count c = 1 ∧ 0 ≤ c.X ∧ 0 ≤ c.Y) ∧
    GameOfLife {cornerCell} 1 = ∅ := by
  refine ⟨by decide, by decide, by decide, by decide, by decide, by decide⟩

theorem nextGenLiveCells_block : nextGenLiveCells block = block := by decide

theorem generationLoop_block (n : Nat) : generationLoop block n = block := by
  induction n with
  | zero => rfl
  | succ n ih =>
    show generationLoop (nextGenLiveCells block) n = block
    rw [nextGenLiveCells_block]
    exact ih

/-- C10: still life. For the 2x2 block `S = {(0,0),(1,0),(0,1),(1,1)}`,
`GameOfLife(S, n) = S` for every generation count `n` (in particular every
`n ≥ 0`). -/
theorem GameOfLife_block (n : Int) : GameOfLife block n = block :=
  generationLoop_block n.toNat

theorem mem_parseLine (acc : Finset Cell) (line : List Char) (c : Cell) :
    c ∈ parseLine acc line ↔
      c ∈ acc ∨ ∃ p0 p1, Fields line = [p0, p1] ∧ Atoi p0 = some c.X ∧ Atoi p1 = some c.Y := by
  unfold parseLine
  split
  · next p0 p1 hf =>
    split
    · next x y hx hy =>
      rw [Finset.mem_insert]
      constructor
      · rintro (rfl | h)
        · exact Or.inr ⟨p0, p1, hf, hx, hy⟩
        · exact Or.inl h
      · rintro (h | ⟨q0, q1, hq, hx', hy'⟩)
        · exact Or.inr h
        · rw [hf] at hq
          simp only [List.cons.injEq, and_true] at hq
          obtain ⟨rfl, rfl⟩ := hq
          rw [hx] at hx'
          rw [hy] at hy'
          simp only [Option.some.injEq] at hx' hy'
          left
          obtain ⟨a, b⟩ := c
          simp only [Cell.mk.injEq]
          exact ⟨hx'.symm, hy'.symm⟩
    · next hnone =>
      constructor
      · exact Or.inl
      · rintro (h | ⟨q0, q1, hq, hx', hy'⟩)
        · exact h
        · rw [hf] at hq
          simp only [List.cons.injEq, and_true] at hq
          obtain ⟨rfl, rfl⟩ := hq
          exact absurd hy' (hnone _ _ hx')
  · next hnot =>
    constructor
    · exact Or.inl
    · rintro (h | ⟨q0, q1, hq, -, -⟩)
      · exact h
      · exact absurd hq (hnot q0 q1)

theorem mem_foldl_parseLine (lines : List (List Char)) (acc : Finset Cell) (c : Cell) :
    c ∈ lines.foldl parseLine acc ↔
      c ∈ acc ∨ ∃ line ∈ lines, ∃ p0 p1,
        Fields line = [p0, p1] ∧ Atoi p0 = some c.X ∧ Atoi p1 = some c.Y := by
  induction lines generalizing acc with
  | nil => simp
  | cons l ls ih =>
    rw [List.foldl_cons, ih, mem_parseLine]
    simp only [List.mem_cons, or_and_right, exists_or, exists_eq_left, or_assoc]

theorem Parse_of_header (text : List Char) (rest : List (List Char))
    (h : Split (TrimSpace text) '\n' = headerLine :: rest) :
    ParseLife106String text = (some (rest.foldl parseLine ∅), none) := by
  unfold ParseLife106String
  rw [h]
  simp

theorem Parse_of_not_header (text : List Char)
    (h : (Split (TrimSpace text) '\n').head? ≠ some headerLine) :
    ParseLife106String text = (none, some headerError) := by
  unfold ParseLife106String
  revert h
  cases Split (TrimSpace text) '\n' with
  | nil => intro _; rfl
  | cons first rest =>
    intro h
    have hne : first ≠ headerLine := fun e => h (by rw [e]; rfl)
    simp [hne]

/-! ## Decoder and encoder: claims -/

/-- C2, as stated, fails: parsing the glider text gives the population
`{(0,0),(1,0),(2,0),(2,1),(1,2)}`, but four generations do not give that shape
shifted by `(+1, +1)`. -/
theorem glider_not_shifted_up :
    ParseLife106String gliderText = (some glider, none) ∧
    GameOfLife glider 4 ≠ gliderUpRight := by
  constructor
  · have h : ParseLife106String gliderText =
        (some (insert ⟨1, 2⟩ (insert ⟨2, 1⟩ (insert ⟨2, 0⟩ (insert ⟨1, 0⟩ {⟨0, 0⟩})))), none) := by
      decide
    rw [h]
    have e : (insert ⟨1, 2⟩ (insert ⟨2, 1⟩ (insert ⟨2, 0⟩ (insert ⟨1, 0⟩ {⟨0, 0⟩}))) :
        Finset Cell) = glider := by decide
    rw [e]
  · decide

/-- C2, amended: parsing the glider text gives the population
`{(0,0),(1,0),(2,0),(2,1),(1,2)}`, and four generations give the same shape with
each of the 5 cells shifted by exactly `(+1, -1)`, i.e.
`{(1,-1),(2,-1),(3,-1),(3,0),(2,1)}`. -/
theorem glider_four_generations :
    ParseLife106String gliderText = (some glider, none) ∧
    GameOfLife glider 4 = gliderDownRight ∧
    gliderDownRight = glider.image (fun c => ⟨c.X + 1, c.Y - 1⟩) ∧
    gliderDownRight.card = 5 := by
  refine ⟨?_, by decide, by decide, by decide⟩
  have h : ParseLife106String gliderText =
      (some (insert ⟨1, 2⟩ (insert ⟨2, 1⟩ (insert ⟨2, 0⟩ (insert ⟨1, 0⟩ {⟨0, 0⟩})))), none) := by
    decide
  rw [h]
  have e : (insert ⟨1, 2⟩ (insert ⟨2, 1⟩ (insert ⟨2, 0⟩ (insert ⟨1, 0⟩ {⟨0, 0⟩}))) :
      Finset Cell) = glider := by decide
  rw [e]

/-- C4: round trip. For every population `S` of cells with int64 coordinates and
every order in which the encoder visits the cells of `S`,
`ParseLife106String(GenerateLife106String(S))` succeeds and returns `S`. -/
theorem ParseLife106String_GenerateLife106String (S : Finset Cell) (order : List Cell)
    (hS : ∀ s ∈ S, s.inRange) (horder : order.toFinset = S) :
    ParseLife106String (GenerateLife106String order) = (some S, none) := by
  subst horder
  exact Parse_Generate order (fun c hc => hS c (List.mem_toFinset.2 hc))

/-- Witness of C4 at a population with negative and extreme coordinates. -/
theorem ParseLife106String_GenerateLife106String_witness :
    (∀ s ∈ sampleOrder.toFinset, s.inRange) ∧
    ParseLife106String (GenerateLife106String sampleOrder) =
      (some sampleOrder.toFinset, none) :=
  ⟨by decide,
    ParseLife106String_GenerateLife106String sampleOrder.toFinset sampleOrder (by decide) rfl⟩

/-- C5: header rejection. For every input text, `ParseLife106String` returns the
header error together with a nil population if and only if the first line of the
trimmed text, split on newlines, is not exactly `#Life 1.06`, and returns a
population with a nil error if and only if it is; in particular it fails on the
empty text and on `not a header\n1 2`. -/
theorem ParseLife106String_header :
    (∀ text : List Char,
      (ParseLife106String text = (none, some headerError) ↔
        (Split (TrimSpace text) '\n').head? ≠ some headerLine) ∧
      ((ParseLife106String text).2 ≠ none ↔
        (Split (TrimSpace text) '\n').head? ≠ some headerLine) ∧
      ((∃ S, ParseLife106String text = (some S, none)) ↔
        (Split (TrimSpace text) '\n').head? = some headerLine)) ∧
    ParseLife106String [] = (none, some headerError) ∧
    ParseLife106String badHeaderText = (none, some headerError) := by
  refine ⟨?_, by decide, by decide⟩
  intro text
  by_cases h : (Split (TrimSpace text) '\n').head? = some headerLine
  · have hs : ∃ rest, Split (TrimSpace text) '\n' = headerLine :: rest := by
      revert h
      cases Split (TrimSpace text) '\n' with
      | nil => intro h; exact absurd h (by simp)
      | cons first rest =>
        intro h
        simp only [List.head?_cons, Option.some.injEq] at h
        exact ⟨rest, by rw [h]⟩
    obtain ⟨rest, hs⟩ := hs
    rw [Parse_of_header text rest hs]
    simp [h]
  · rw [Parse_of_not_header text h]
    simp [h]

/-- C6: malformed line tolerance. For every input whose first line is the
header, `ParseLife106String` succeeds and returns exactly the set of cells
`(x, y)` such that some line after the header splits on white space into exactly
two tokens that `Atoi` parses as `x` and `y`; every other line is skipped and
duplicates collapse. The text `#Life 1.06\n1 2\nbad line\n3\n4 5` yields exactly
`{(1,2),(4,5)}`. -/
theorem ParseLife106String_tolerant :
    (∀ (text : List Char) (rest : List (List Char)),
      Split (TrimSpace text) '\n' = headerLine :: rest →
      ∃ S, ParseLife106String text = (some S, none) ∧
        ∀ c : Cell, c ∈ S ↔ ∃ line ∈ rest, ∃ p0 p1,
          Fields line = [p0, p1] ∧ Atoi p0 = some c.X ∧ Atoi p1 = some c.Y) ∧
    ParseLife106String tolerantText = (some {⟨1, 2⟩, ⟨4, 5⟩}, none) := by
  constructor
  · intro text rest h
    refine ⟨_, Parse_of_header text rest h, ?_⟩
    intro c
    rw [mem_foldl_parseLine]
    simp
  · have h : ParseLife106String tolerantText = (some (insert ⟨4, 5⟩ {⟨1, 2⟩}), none) := by
      decide
    rw [h]
    have e : (insert ⟨4, 5⟩ {⟨1, 2⟩} : Finset Cell) = {⟨1, 2⟩, ⟨4, 5⟩} := by decide
    rw [e]

/-- Witness of C6 at the malformed-line text. -/
theorem ParseLife106String_tolerant_witness :
    Split (TrimSpace tolerantText) '\n' =
      [headerLine, ['1', ' ', '2'], "bad line".toList, ['3'], ['4', ' ', '5']] ∧
    ∃ S, ParseLife106String tolerantText = (some S, none) ∧
      ∀ c : Cell, c ∈ S ↔
        ∃ line ∈ [['1', ' ', '2'], "bad line".toList, ['3'], ['4', ' ', '5']], ∃ p0 p1,
          Fields line = [p0, p1] ∧ Atoi p0 = some c.X ∧ Atoi p1 = some c.Y :=
  ⟨by decide, ParseLife106String_tolerant.1 tolerantText _ (by decide)⟩

/-! ## Engine: the tally as a whole -/

theorem neighborAt_zero (c : Cell) : neighborAt c 0 0 = none := by
  simp [neighborAt]

theorem length_cellNeighbors_le (c : Cell) : (cellNeighbors c).length ≤ 8 := by
  rw [cellNeighbors_eq_filterMap]
  have hsplit : offsets.product offsets =
      [(-1, -1), (-1, 0), (-1, 1), (0, -1)] ++ (0, 0) :: [(0, 1), (1, -1), (1, 0), (1, 1)] := by
    decide
  have hcons : List.filterMap (fun d : Int × Int => neighborAt c d.1 d.2)
      [(0, 0), (0, 1), (1, -1), (1, 0), (1, 1)] =
      List.filterMap (fun d : Int × Int => neighborAt c d.1 d.2)
        [(0, 1), (1, -1), (1, 0), (1, 1)] :=
    List.filterMap_cons_none (neighborAt_zero c)
  rw [hsplit, List.filterMap_append, hcons, List.length_append]
  have h1 := List.length_filterMap_le (fun d : Int × Int => neighborAt c d.1 d.2)
    [(-1, -1), (-1, 0), (-1, 1), (0, -1)]
  have h2 := List.length_filterMap_le (fun d : Int × Int => neighborAt c d.1 d.2)
    [(0, 1), (1, -1), (1, 0), (1, 1)]
  simp only [List.length_cons, List.length_nil] at h1 h2
  omega

theorem inRange_of_mem_cellNeighbors (s c : Cell) (hs : s.inRange) (h : c ∈ cellNeighbors s) :
    c.inRange := by
  rw [cellNeighbors_eq_filterMap, List.mem_filterMap] at h
  obtain ⟨⟨dx, dy⟩, hd, h⟩ := h
  obtain ⟨hdx, hdy⟩ := List.mem_product.1 hd
  obtain ⟨-, hx, hy, e⟩ := (neighborAt_some s c dx dy hs hdx hdy).1 h
  rw [e]
  exact ⟨hx, hy⟩

theorem mem_neighborCounts_iff (S : Finset Cell) (c : Cell) (hS : ∀ s ∈ S, s.inRange) :
    c ∈ neighborCounts S ↔ c.inRange ∧ ∃ s ∈ S, adjacent s c := by
  unfold neighborCounts
  rw [Multiset.mem_bind]
  constructor
  · rintro ⟨s, hs, hc⟩
    have hs' : s ∈ S := hs
    have hc' : c ∈ cellNeighbors s := hc
    have hr := inRange_of_mem_cellNeighbors s c (hS s hs') hc'
    exact ⟨hr, s, hs', (adjacent_comm s c).2 ((mem_cellNeighbors_iff s c (hS s hs') hr).1 hc')⟩
  · rintro ⟨hr, s, hs, hadj⟩
    exact ⟨s, hs, (mem_cellNeighbors_iff s c (hS s hs) hr).2 ((adjacent_comm s c).1 hadj)⟩

theorem count_eq_liveNeighbours (S : Finset Cell) (c : Cell) (hS : ∀ s ∈ S, s.inRange)
    (hc : c.inRange) : (neighborCounts S).count c = liveNeighbours S c := by
  have hfilter : S.filter (fun s => adjacent s c) = S.filter (fun s => adjacent c s) :=
    Finset.filter_congr (fun s _ => adjacent_comm s c)
  unfold liveNeighbours
  rw [hfilter]
  exact count_neighborCounts S c hS hc

theorem liveNeighbours_le_eight (S : Finset Cell) (c : Cell) (hS : ∀ s ∈ S, s.inRange)
    (hc : c.inRange) : liveNeighbours S c ≤ 8 := by
  unfold liveNeighbours
  have hsub : S.filter (fun s => adjacent s c) ⊆ (cellNeighbors c).toFinset := by
    intro s hs
    rw [Finset.mem_filter] at hs
    rw [List.mem_toFinset]
    exact (mem_cellNeighbors_iff c s hc (hS s hs.1)).2 hs.2
  calc (S.filter (fun s => adjacent s c)).card
      ≤ (cellNeighbors c).toFinset.card := Finset.card_le_card hsub
    _ ≤ (cellNeighbors c).length := List.toFinset_card_le _
    _ ≤ 8 := length_cellNeighbors_le c

theorem liveNeighbours_pos_iff (S : Finset Cell) (c : Cell) :
    0 < liveNeighbours S c ↔ ∃ s ∈ S, adjacent s c := by
  unfold liveNeighbours
  rw [Finset.card_pos]
  constructor
  · rintro ⟨s, hs⟩
    rw [Finset.mem_filter] at hs
    exact ⟨s, hs.1, hs.2⟩
  · rintro ⟨s, hs, hadj⟩
    exact ⟨s, Finset.mem_filter.2 ⟨hs, hadj⟩⟩

theorem liveNeighbours_lt_card (S : Finset Cell) (c : Cell) (hc : c ∈ S) :
    liveNeighbours S c < S.card := by
  unfold liveNeighbours
  have hsub : S.filter (fun s => adjacent s c) ⊆ S.erase c := by
    intro s hs
    rw [Finset.mem_filter] at hs
    exact Finset.mem_erase.2 ⟨fun e => hs.2.2.2.2.2 e.symm, hs.1⟩
  have h1 := Finset.card_le_card hsub
  have h2 := Finset.card_erase_lt_of_mem hc
  omega

theorem liveNeighbours_le_card (S : Finset Cell) (c : Cell) : liveNeighbours S c ≤ S.card :=
  Finset.card_le_card (Finset.filter_subset _ _)

theorem mem_nextGenLiveCells (S : Finset Cell) (c : Cell) (hS : ∀ s ∈ S, s.inRange) :
    c ∈ nextGenLiveCells S ↔
      c.inRange ∧ ((c ∉ S ∧ liveNeighbours S c = 3) ∨
        (c ∈ S ∧ (liveNeighbours S c = 2 ∨ liveNeighbours S c = 3))) := by
  constructor
  · intro h
    have hkey : c ∈ neighborCounts S := by
      unfold nextGenLiveCells at h
      exact Multiset.mem_toFinset.1 (Finset.mem_filter.1 h).1
    have hr := ((mem_neighborCounts_iff S c hS).1 hkey).1
    exact ⟨hr, (mem_nextGenLiveCells_iff S c hS hr).1 h⟩
  · rintro ⟨hr, h⟩
    exact (mem_nextGenLiveCells_iff S c hS hr).2 h

theorem three_le_card_of_mem_nextGenLiveCells (S : Finset Cell) (c : Cell)
    (hS : ∀ s ∈ S, s.inRange) (h : c ∈ nextGenLiveCells S) :
    2 ≤ liveNeighbours S c ∧ 3 ≤ S.card := by
  obtain ⟨-, h⟩ := (mem_nextGenLiveCells S c hS).1 h
  rcases h with ⟨-, h3⟩ | ⟨hc, h23⟩
  · have := liveNeighbours_le_card S c
    omega
  · have := liveNeighbours_lt_card S c hc
    omega

theorem nextGenLiveCells_empty : nextGenLiveCells ∅ = ∅ := by decide

theorem generationLoop_empty (n : Nat) : generationLoop ∅ n = ∅ := by
  induction n with
  | zero => rfl
  | succ n ih =>
    show generationLoop (nextGenLiveCells ∅) n = ∅
    rw [nextGenLiveCells_empty]
    exact ih

theorem nextGenLiveCells_of_card_le_two (S : Finset Cell) (hS : ∀ s ∈ S, s.inRange)
    (h : S.card ≤ 2) : nextGenLiveCells S = ∅ := by
  rw [Finset.eq_empty_iff_forall_not_mem]
  intro c hc
  have := (three_le_card_of_mem_nextGenLiveCells S c hS hc).2
  omega

theorem card_toFinset_neighborCounts_le (S : Finset Cell) :
    (neighborCounts S).toFinset.card ≤ 8 * S.card := by
  have h1 : (neighborCounts S).toFinset.card ≤ Multiset.card (neighborCounts S) :=
    Multiset.toFinset_card_le _
  have h2 : Multiset.card (neighborCounts S) ≤ 8 * S.card := by
    unfold neighborCounts
    rw [Multiset.card_bind]
    have hle : ∀ x ∈ S.val.map (Multiset.card ∘ fun cell => (cellNeighbors cell : Multiset Cell)),
        x ≤ 8 := by
      intro x hx
      rw [Multiset.mem_map] at hx
      obtain ⟨s, -, rfl⟩ := hx
      exact length_cellNeighbors_le s
    have := Multiset.sum_le_card_nsmul _ 8 hle
    simpa [Nat.mul_comm] using this
  exact le_trans h1 h2

theorem adjacent_shift (a b : Int) (s c : Cell) :
    adjacent (s.shift a b) (c.shift a b) ↔ adjacent s c := by
  obtain ⟨x, y⟩ := s
  obtain ⟨u, v⟩ := c
  simp only [adjacent, Cell.shift, ne_eq, Cell.mk.injEq]
  constructor <;>
  · rintro ⟨h1, h2, h3, h4, h5⟩
    exact ⟨by omega, by omega, by omega, by omega, fun h => h5 ⟨by omega, by omega⟩⟩

theorem shift_injective (a b : Int) : Function.Injective (Cell.shift a b) := by
  rintro ⟨x, y⟩ ⟨u, v⟩ h
  simp only [Cell.shift, Cell.mk.injEq] at h ⊢
  constructor <;> omega

theorem mem_shiftCells (a b : Int) (S : Finset Cell) (c : Cell) :
    c.shift a b ∈ shiftCells a b S ↔ c ∈ S := by
  unfold shiftCells
  rw [Finset.mem_image]
  constructor
  · rintro ⟨s, hs, e⟩
    rw [← shift_injective a b e]
    exact hs
  · intro h
    exact ⟨c, h, rfl⟩

theorem liveNeighbours_shift (a b : Int) (S : Finset Cell) (c : Cell) :
    liveNeighbours (shiftCells a b S) (c.shift a b) = liveNeighbours S c := by
  unfold liveNeighbours shiftCells
  rw [Finset.filter_image, Finset.card_image_of_injective _ (shift_injective a b)]
  congr 1
  exact Finset.filter_congr (fun s _ => adjacent_shift a b s c)

theorem inRange_of_interior (c : Cell) (h : c.interior) : c.inRange := by
  obtain ⟨h1, h2, h3, h4⟩ := h
  exact ⟨⟨le_of_lt h1, le_of_lt h2⟩, le_of_lt h3, le_of_lt h4⟩

theorem inRange_of_adjacent_interior (s c : Cell) (hs : s.interior) (h : adjacent s c) :
    c.inRange := by
  obtain ⟨h1, h2, h3, h4⟩ := hs
  obtain ⟨a1, a2, a3, a4, -⟩ := h
  unfold MinInt64 at h1 h3
  unfold MaxInt64 at h2 h4
  simp only [Cell.inRange, inRange64, MinInt64, MaxInt64]
  omega

theorem shift_unshift (a b : Int) (c : Cell) : (Cell.shift (-a) (-b) c).shift a b = c := by
  obtain ⟨x, y⟩ := c
  simp only [Cell.shift, Cell.mk.injEq]
  constructor <;> omega

/-! ## Engine: further claims -/

/-- C11: birth. For the L-shape `S = {(0,0),(1,0),(0,1)}`, one generation gives
exactly `{(0,0),(1,0),(0,1),(1,1)}`: the cell `(1,1)`, dead before and with
exactly 3 live neighbours, is born, and the three original cells survive. -/
theorem lShape_birth :
    GameOfLife lShape 1 = block ∧
    (⟨1, 1⟩ : Cell) ∉ lShape ∧ liveNeighbours lShape ⟨1, 1⟩ = 3 ∧
    (⟨1, 1⟩ : Cell) ∈ GameOfLife lShape 1 ∧ lShape ⊆ GameOfLife lShape 1 := by
  refine ⟨by decide, by decide, by decide, by decide, by decide⟩

/-- C12: extinction. A population of a single live cell at any int64
coordinate is empty after one generation. -/
theorem single_cell_dies (c : Cell) (hc : c.inRange) : GameOfLife {c} 1 = ∅ := by
  apply nextGenLiveCells_of_card_le_two
  · intro s hs
    rw [Finset.mem_singleton] at hs
    rw [hs]
    exact hc
  · rw [Finset.card_singleton]
    decide

/-- Witness of C12 at `(5,5)` and at the two extreme corners. -/
theorem single_cell_dies_witness :
    ((⟨5, 5⟩ : Cell).inRange ∧ GameOfLife loneCell 1 = ∅) ∧
    ((⟨MaxInt64, MaxInt64⟩ : Cell).inRange ∧ GameOfLife loneMaxCorner 1 = ∅) ∧
    ((⟨MinInt64, MinInt64⟩ : Cell).inRange ∧ GameOfLife loneMinCorner 1 = ∅) :=
  ⟨⟨by decide, single_cell_dies ⟨5, 5⟩ (by decide)⟩,
    ⟨by decide, single_cell_dies ⟨MaxInt64, MaxInt64⟩ (by decide)⟩,
    ⟨by decide, single_cell_dies ⟨MinInt64, MinInt64⟩ (by decide)⟩⟩

/-- C14: neighbour tally correctness. For a population `S` of int64 cells, the
keys of `neighborCounts` are exactly the int64 cells with at least one adjacent
cell in `S`, and the value at a key is the number of cells of `S` adjacent to
it, which is between 1 and 8. -/
theorem neighborCounts_tally (S : Finset Cell) (hS : ∀ s ∈ S, s.inRange) (c : Cell) :
    (c ∈ (neighborCounts S).toFinset ↔ c.inRange ∧ ∃ s ∈ S, adjacent s c) ∧
    (c ∈ (neighborCounts S).toFinset →
      (neighborCounts S).count c = liveNeighbours S c ∧
      1 ≤ (neighborCounts S).count c ∧ (neighborCounts S).count c ≤ 8) := by
  rw [Multiset.mem_toFinset]
  refine ⟨mem_neighborCounts_iff S c hS, ?_⟩
  intro h
  have hr := ((mem_neighborCounts_iff S c hS).1 h).1
  refine ⟨count_eq_liveNeighbours S c hS hr, Multiset.one_le_count_iff_mem.2 h, ?_⟩
  rw [count_eq_liveNeighbours S c hS hr]
  exact liveNeighbours_le_eight S c hS hr

/-- Witness of C14 at the L-shape and the cell `(1,1)`, whose tally is 3. -/
theorem neighborCounts_tally_witness :
    (∀ s ∈ lShape, s.inRange) ∧
    (neighborCounts lShape).count ⟨1, 1⟩ = liveNeighbours lShape ⟨1, 1⟩ ∧
    1 ≤ (neighborCounts lShape).count ⟨1, 1⟩ ∧ (neighborCounts lShape).count ⟨1, 1⟩ ≤ 8 :=
  ⟨by decide, (neighborCounts_tally lShape (by decide) ⟨1, 1⟩).2 (by decide)⟩

/-- C15: tally size bound. The number of distinct cells in the neighbour tally
of one generation is at most `8 * |S|`, and so is the size of the next
generation. -/
theorem tally_size_bound (S : Finset Cell) :
    (neighborCounts S).toFinset.card ≤ 8 * S.card ∧
    (GameOfLife S 1).card ≤ 8 * S.card := by
  refine ⟨card_toFinset_neighborCounts_le S, ?_⟩
  have hsub : GameOfLife S 1 ⊆ (neighborCounts S).toFinset := Finset.filter_subset _ _
  exact le_trans (Finset.card_le_card hsub) (card_toFinset_neighborCounts_le S)

/-- C18: translation invariance away from the boundary. If all cells of `S` and
of `S` shifted by `(a, b)` have both coordinates strictly between `MinInt64` and
`MaxInt64`, then one generation of the shifted population is the shift of one
generation of `S`. -/
theorem GameOfLife_shift (S : Finset Cell) (a b : Int) (hS : ∀ s ∈ S, s.interior)
    (hS' : ∀ s ∈ S, (s.shift a b).interior) :
    GameOfLife (shiftCells a b S) 1 = shiftCells a b (GameOfLife S 1) := by
  have hR : ∀ s ∈ S, s.inRange := fun s hs => inRange_of_interior s (hS s hs)
  have hR' : ∀ s ∈ shiftCells a b S, s.inRange := by
    intro s hs
    obtain ⟨t, ht, rfl⟩ := Finset.mem_image.1 hs
    exact inRange_of_interior _ (hS' t ht)
  have hrule : ∀ c : Cell,
      ((c.shift a b ∉ shiftCells a b S ∧ liveNeighbours (shiftCells a b S) (c.shift a b) = 3) ∨
        (c.shift a b ∈ shiftCells a b S ∧
          (liveNeighbours (shiftCells a b S) (c.shift a b) = 2 ∨
           liveNeighbours (shiftCells a b S) (c.shift a b) = 3))) ↔
      ((c ∉ S ∧ liveNeighbours S c = 3) ∨
        (c ∈ S ∧ (liveNeighbours S c = 2 ∨ liveNeighbours S c = 3))) := by
    intro c
    rw [liveNeighbours_shift, mem_shiftCells]
  show nextGenLiveCells (shiftCells a b S) = shiftCells a b (nextGenLiveCells S)
  ext c'
  constructor
  · intro h
    obtain ⟨-, hr⟩ := (mem_nextGenLiveCells _ c' hR').1 h
    rw [← shift_unshift a b c', hrule] at hr
    have hpos : 0 < liveNeighbours S (Cell.shift (-a) (-b) c') := by
      rcases hr with ⟨-, h3⟩ | ⟨-, h2 | h3⟩ <;> omega
    obtain ⟨s, hs, hadj⟩ := (liveNeighbours_pos_iff S _).1 hpos
    have hc : (Cell.shift (-a) (-b) c').inRange :=
      inRange_of_adjacent_interior s _ (hS s hs) hadj
    rw [← shift_unshift a b c']
    exact Finset.mem_image.2 ⟨_, (mem_nextGenLiveCells S _ hR).2 ⟨hc, hr⟩, rfl⟩
  · intro h
    obtain ⟨c, hc, rfl⟩ := Finset.mem_image.1 h
    obtain ⟨-, hr⟩ := (mem_nextGenLiveCells S c hR).1 hc
    have hpos : 0 < liveNeighbours S c := by
      rcases hr with ⟨-, h3⟩ | ⟨-, h2 | h3⟩ <;> omega
    obtain ⟨s, hs, hadj⟩ := (liveNeighbours_pos_iff S c).1 hpos
    have hc' : (c.shift a b).inRange :=
      inRange_of_adjacent_interior (s.shift a b) _ (hS' s hs) ((adjacent_shift a b s c).2 hadj)
    exact (mem_nextGenLiveCells _ _ hR').2 ⟨hc', (hrule c).2 hr⟩

/-- Witness of C18: the glider moved next to the corner `(MaxInt64, MinInt64)`. -/
theorem GameOfLife_shift_witness :
    ((∀ s ∈ glider, s.interior) ∧
      ∀ s ∈ glider, (s.shift (MaxInt64 - 4) (MinInt64 + 2)).interior) ∧
    GameOfLife (shiftCells (MaxInt64 - 4) (MinInt64 + 2) glider) 1 =
      shiftCells (MaxInt64 - 4) (MinInt64 + 2) (GameOfLife glider 1) :=
  ⟨⟨by decide, by decide⟩,
    GameOfLife_shift glider (MaxInt64 - 4) (MinInt64 + 2) (by decide) (by decide)⟩

/-- C19: small populations die. For a population `S` of int64 cells: if `S` has
at most 2 cells then `GameOfLife(S, n)` is empty for every `n ≥ 1`; every cell
alive after one step had at least 2 live neighbours before it; and if anything
is alive after one step then `S` has at least 3 cells. -/
theorem small_populations_die (S : Finset Cell) (hS : ∀ s ∈ S, s.inRange) :
    (S.card ≤ 2 → ∀ n : Int, 1 ≤ n → GameOfLife S n = ∅) ∧
    (∀ c ∈ GameOfLife S 1, 2 ≤ liveNeighbours S c) ∧
    ((GameOfLife S 1).Nonempty → 3 ≤ S.card) := by
  refine ⟨?_, ?_, ?_⟩
  · intro hcard n hn
    obtain ⟨k, hk⟩ : ∃ k : Nat, n.toNat = k + 1 := ⟨n.toNat - 1, by omega⟩
    unfold GameOfLife
    rw [hk]
    show generationLoop (nextGenLiveCells S) k = ∅
    rw [nextGenLiveCells_of_card_le_two S hS hcard]
    exact generationLoop_empty k
  · intro c hc
    exact (three_le_card_of_mem_nextGenLiveCells S c hS hc).1
  · rintro ⟨c, hc⟩
    exact (three_le_card_of_mem_nextGenLiveCells S c hS hc).2

/-- Witness of C19: a two-cell population is empty after 3 generations, and the
cell `(1,1)` born from the L-shape had 3 live neighbours. -/
theorem small_populations_die_witness :
    ((∀ s ∈ domino, s.inRange) ∧ domino.card ≤ 2 ∧ (1 : Int) ≤ 3 ∧
      GameOfLife domino 3 = ∅) ∧
    ((∀ s ∈ lShape, s.inRange) ∧ (⟨1, 1⟩ : Cell) ∈ GameOfLife lShape 1 ∧
      2 ≤ liveNeighbours lShape ⟨1, 1⟩) :=
  ⟨⟨by decide, by decide, by decide,
      (small_populations_die domino (by decide)).1 (by decide) 3 (by decide)⟩,
    ⟨by decide, by decide,
      (small_populations_die lShape (by decide)).2.1 ⟨1, 1⟩ (by decide)⟩⟩

/-! ## Text: trimming -/

theorem dropWhile_of_all (p : Char → Bool) (ws rest : List Char) (h : ∀ c ∈ ws, p c = true) :
    (ws ++ rest).dropWhile p = rest.dropWhile p := by
  induction ws with
  | nil => rfl
  | cons c cs ih =>
    have hc : p c = true := h c (List.mem_cons_self _ _)
    rw [List.cons_append, List.dropWhile_cons_of_pos hc]
    exact ih (fun x hx => h x (List.mem_cons_of_mem _ hx))

theorem dropWhile_head (p : Char → Bool) (l : List Char) (c : Char) (cs : List Char)
    (h : l.dropWhile p = c :: cs) : p c = false := by
  induction l with
  | nil => simp at h
  | cons x xs ih =>
    by_cases hx : p x = true
    · rw [List.dropWhile_cons_of_pos hx] at h
      exact ih h
    · rw [List.dropWhile_cons_of_neg hx] at h
      simp only [List.cons.injEq] at h
      rw [← h.1]
      simpa using hx

theorem dropWhile_idem (p : Char → Bool) (l : List Char) :
    (l.dropWhile p).dropWhile p = l.dropWhile p := by
  cases h : l.dropWhile p with
  | nil => rfl
  | cons c cs => exact dropWhile_eq_self_of_head p c cs (dropWhile_head p l c cs h)

theorem dropWhile_decomp (p : Char → Bool) (l : List Char) :
    ∃ pre, l = pre ++ l.dropWhile p :=
  ⟨l.takeWhile p, (List.takeWhile_append_dropWhile p l).symm⟩

theorem dropWhile_ne_nil (p : Char → Bool) (l : List Char) (c : Char) (hc : c ∈ l)
    (h : p c = false) : l.dropWhile p ≠ [] := by
  induction l with
  | nil => simp at hc
  | cons x xs ih =>
    by_cases hx : p x = true
    · rw [List.dropWhile_cons_of_pos hx]
      rcases List.mem_cons.1 hc with e | hmem
      · rw [e, hx] at h
        exact absurd h (by decide)
      · exact ih hmem
    · rw [List.dropWhile_cons_of_neg hx]
      simp

theorem dropWhile_append_right (p : Char → Bool) (t ws : List Char) :
    (t ++ ws).dropWhile p = if t.dropWhile p = [] then ws.dropWhile p else t.dropWhile p ++ ws := by
  induction t with
  | nil => simp
  | cons x xs ih =>
    by_cases hx : p x = true
    · rw [List.cons_append, List.dropWhile_cons_of_pos hx, List.dropWhile_cons_of_pos hx]
      exact ih
    · rw [List.cons_append, List.dropWhile_cons_of_neg hx, List.dropWhile_cons_of_neg hx]
      simp

theorem TrimSpace_idem (s : List Char) : TrimSpace (TrimSpace s) = TrimSpace s := by
  unfold TrimSpace
  obtain ⟨pre, hpre⟩ := dropWhile_decomp isSpace (s.dropWhile isSpace).reverse
  have hfix : ((s.dropWhile isSpace).reverse.dropWhile isSpace).reverse.dropWhile isSpace =
      ((s.dropWhile isSpace).reverse.dropWhile isSpace).reverse := by
    cases hb : ((s.dropWhile isSpace).reverse.dropWhile isSpace).reverse with
    | nil => rfl
    | cons d ds =>
      have ha : s.dropWhile isSpace = d :: (ds ++ pre.reverse) := by
        have h1 := congrArg List.reverse hpre
        rw [List.reverse_reverse, List.reverse_append, hb] at h1
        exact h1
      exact dropWhile_eq_self_of_head isSpace d ds (dropWhile_head isSpace s d _ ha)
  rw [hfix, List.reverse_reverse, dropWhile_idem]

theorem TrimSpace_pad (ws1 t ws2 : List Char) (h1 : ∀ c ∈ ws1, isSpace c = true)
    (h2 : ∀ c ∈ ws2, isSpace c = true) : TrimSpace (ws1 ++ t ++ ws2) = TrimSpace t := by
  unfold TrimSpace
  rw [List.append_assoc, dropWhile_of_all isSpace ws1 _ h1, dropWhile_append_right]
  have hws2 : ws2.dropWhile isSpace = [] := by
    have := dropWhile_of_all isSpace ws2 [] h2
    simpa using this
  split_ifs with ht
  · rw [hws2, ht]
  · rw [List.reverse_append,
      dropWhile_of_all isSpace ws2.reverse _ (fun c hc => h2 c (List.mem_reverse.1 hc))]

theorem TrimSpace_keep_prefix (c : Char) (pre rest : List Char) (hc : isSpace c = false)
    (hrest : ∃ d ∈ rest, isSpace d = false) :
    ∃ rest', TrimSpace (c :: pre ++ rest) = c :: pre ++ rest' := by
  obtain ⟨d, hd, hdsp⟩ := hrest
  unfold TrimSpace
  rw [List.cons_append, dropWhile_eq_self_of_head isSpace c _ hc, ← List.cons_append,
    List.reverse_append, dropWhile_append_right,
    if_neg (dropWhile_ne_nil isSpace rest.reverse d (List.mem_reverse.2 hd) hdsp),
    List.reverse_append, List.reverse_reverse]
  exact ⟨_, rfl⟩

theorem Parse_TrimSpace (t : List Char) :
    ParseLife106String (TrimSpace t) = ParseLife106String t := by
  unfold ParseLife106String
  rw [TrimSpace_idem]

/-! ## Text: integers -/

theorem foldl_digitStep_none (l : List Char) : l.foldl digitStep none = none := by
  induction l with
  | nil => rfl
  | cons c cs ih => exact ih

theorem digit_of_parseDigits (c : Char) (cs : List Char) (un : Nat)
    (h : parseDigits (c :: cs) = some un) : 48 ≤ c.toNat ∧ c.toNat ≤ 57 := by
  by_contra hc
  unfold parseDigits at h
  rw [List.foldl_cons] at h
  have hstep : digitStep (some 0) c = none := by
    simp only [digitStep, if_neg hc]
  rw [hstep, foldl_digitStep_none] at h
  exact absurd h (by simp)

theorem Atoi_digits (ds : List Char) (un : Nat) (hne : ds ≠ [])
    (h : parseDigits ds = some un) :
    Atoi ds = (if un ≥ 9223372036854775808 then none else some (un : Int)) ∧
    Atoi ('+' :: ds) = (if un ≥ 9223372036854775808 then none else some (un : Int)) ∧
    Atoi ('-' :: ds) = (if un > 9223372036854775808 then none else some (-(un : Int))) := by
  refine ⟨?_, ?_, ?_⟩
  · cases ds with
    | nil => exact absurd rfl hne
    | cons c cs =>
      have hc := digit_ne_sign c (digit_of_parseDigits c cs un h)
      have hc' : c ≠ '-' := fun e => hc (Or.inl e)
      have hc'' : c ≠ '+' := fun e => hc (Or.inr e)
      simp only [Atoi, or_self, if_false, h, hc', hc'', reduceCtorEq]
  · have hplus : ('+' : Char) ≠ '-' := by decide
    simp only [Atoi, or_true, if_true, hne, if_false, h, hplus]
  · simp only [Atoi, true_or, if_true, hne, if_false, h]

theorem Atoi_inRange (s : List Char) (z : Int) (h : Atoi s = some z) : inRange64 z := by
  cases s with
  | nil => exact absurd h (by simp [Atoi])
  | cons c cs =>
    simp only [Atoi] at h
    generalize (if c = '-' ∨ c = '+' then cs else c :: cs) = ds at h
    by_cases hds : ds = []
    · rw [if_pos hds] at h
      exact absurd h (by simp)
    · rw [if_neg hds] at h
      cases hp : parseDigits ds with
      | none =>
        rw [hp] at h
        exact absurd h (by simp)
      | some un =>
        rw [hp] at h
        simp only at h
        by_cases hneg : c = '-'
        · rw [if_pos hneg] at h
          by_cases hbig : un > 9223372036854775808
          · rw [if_pos hbig] at h
            exact absurd h (by simp)
          · rw [if_neg hbig, Option.some.injEq] at h
            subst h
            simp only [inRange64, MinInt64, MaxInt64]
            omega
        · rw [if_neg hneg] at h
          by_cases hbig : un ≥ 9223372036854775808
          · rw [if_pos hbig] at h
            exact absurd h (by simp)
          · rw [if_neg hbig, Option.some.injEq] at h
            subst h
            simp only [inRange64, MinInt64, MaxInt64]
            omega

theorem parseLine_skip (acc : Finset Cell) (line : List Char)
    (h : ∃ tok ∈ Fields line, Atoi tok = none) : parseLine acc line = acc := by
  obtain ⟨tok, htok, hnone⟩ := h
  unfold parseLine
  split
  · next p0 p1 hf =>
    rw [hf] at htok
    split
    · next x y hx hy =>
      simp only [List.mem_cons, List.mem_singleton, List.not_mem_nil, or_false] at htok
      rcases htok with rfl | rfl
      · rw [hx] at hnone; exact absurd hnone (by simp)
      · rw [hy] at hnone; exact absurd hnone (by simp)
    · rfl
  · rfl

theorem inRange_of_mem_foldl_parseLine (lines : List (List Char)) (c : Cell)
    (h : c ∈ lines.foldl parseLine ∅) : c.inRange := by
  rw [mem_foldl_parseLine] at h
  rcases h with h | ⟨line, -, p0, p1, -, hx, hy⟩
  · exact absurd h (Finset.not_mem_empty c)
  · exact ⟨Atoi_inRange p0 c.X hx, Atoi_inRange p1 c.Y hy⟩

/-! ## Text: the encoder's output -/

theorem digitChar_eq (d : Nat) (h : d < 10) : digitChar d = Nat.digitChar d := by
  interval_cases d <;> rfl

theorem toDigitsCore_eq_natDigits (fuel n : Nat) (ds : List Char) (h : n < fuel) :
    Nat.toDigitsCore 10 fuel n ds = natDigits fuel n ++ ds := by
  induction fuel generalizing n ds with
  | zero => omega
  | succ fuel ih =>
    unfold Nat.toDigitsCore natDigits
    by_cases hn : n < 10
    · have h0 : n / 10 = 0 := by omega
      have hm : n % 10 = n := by omega
      simp only [h0, hm, if_true, if_pos hn, List.singleton_append, digitChar_eq n hn]
    · have h0 : n / 10 ≠ 0 := by omega
      have hlt : n / 10 < fuel := by omega
      simp only [if_neg h0, if_neg hn, ih (n / 10) _ hlt, List.append_assoc,
        List.singleton_append, digitChar_eq (n % 10) (Nat.mod_lt _ (by decide))]

theorem natDigits_eq_repr (n : Nat) : natDigits (n + 1) n = (Nat.repr n).toList := by
  have h := toDigitsCore_eq_natDigits (n + 1) n [] (Nat.lt_succ_self n)
  rw [List.append_nil] at h
  rw [← h]
  rfl

theorem formatInt_eq_repr (z : Int) : formatInt z = (Int.repr z).toList := by
  unfold formatInt
  cases z with
  | ofNat m =>
    have hneg : ¬ (Int.ofNat m < 0) := by simp
    rw [if_neg hneg]
    exact natDigits_eq_repr m
  | negSucc m =>
    have hneg : Int.negSucc m < 0 := Int.negSucc_lt_zero m
    rw [if_pos hneg]
    show '-' :: natDigits (m + 1 + 1) (m + 1) = ("-" ++ Nat.repr (m + 1)).toList
    rw [natDigits_eq_repr (m + 1)]
    rfl

theorem Split_Generate (order : List Cell) :
    Split (GenerateLife106String order) '\n' =
      headerLine :: order.map (fun cell => Sprintf cell.X cell.Y) := by
  unfold GenerateLife106String
  apply Split_Join
  intro x hx
  rw [List.mem_cons, List.mem_map] at hx
  rcases hx with rfl | ⟨c, -, rfl⟩
  · decide
  · exact Sprintf_no_newline c.X c.Y

theorem Generate_last (order : List Cell) :
    ∃ init d, GenerateLife106String order = init ++ [d] ∧ isSpace d = false := by
  unfold GenerateLife106String
  apply Join_last
  intro x hx
  rw [List.mem_cons, List.mem_map] at hx
  rcases hx with rfl | ⟨c, -, rfl⟩
  · exact ⟨['#', 'L', 'i', 'f', 'e', ' ', '1', '.', '0'], '6', rfl, by decide⟩
  · exact Sprintf_last c.X c.Y

/-! ## Decoder and encoder: further claims -/

/-- C13: encoder format. For a population `S` visited in the order `order`
(each cell once), the output split on newlines is the line `#Life 1.06` followed
by exactly `|S|` lines which are, as a multiset, the strings `<decimal X>`,
one space, `<decimal Y>` of the cells of `S`; the decimal strings are those of
`Int.repr`; the output does not end in a newline, and for the empty population
it is exactly `#Life 1.06`. -/
theorem GenerateLife106String_format (S : Finset Cell) (order : List Cell)
    (hnd : order.Nodup) (horder : order.toFinset = S) :
    ∃ lines : List (List Char),
      Split (GenerateLife106String order) '\n' = headerLine :: lines ∧
      lines.length = S.card ∧
      (lines : Multiset (List Char)) =
        S.val.map (fun c => (Int.repr c.X).toList ++ ' ' :: (Int.repr c.Y).toList) ∧
      (GenerateLife106String order).getLast? ≠ some '\n' ∧
      (S = ∅ → GenerateLife106String order = headerLine) := by
  subst horder
  refine ⟨order.map (fun cell => Sprintf cell.X cell.Y), Split_Generate order, ?_, ?_, ?_, ?_⟩
  · rw [List.length_map, List.toFinset_card_of_nodup hnd]
  · have hval : order.toFinset.val = (order : Multiset Cell) := by
      rw [List.toFinset_val, List.Nodup.dedup hnd]
    rw [hval, Multiset.map_coe]
    congr 1
    apply List.map_congr_left
    intro c _
    show formatInt c.X ++ ' ' :: formatInt c.Y = _
    rw [formatInt_eq_repr, formatInt_eq_repr]
  · obtain ⟨init, d, e, hd⟩ := Generate_last order
    have hl : (init ++ [d]).getLast? = some d := by simp
    rw [e, hl]
    intro h
    rw [Option.some.injEq] at h
    rw [h] at hd
    exact absurd hd (by decide)
  · intro h
    have hnil : order = [] := (List.toFinset_eq_empty_iff order).1 h
    rw [hnil]
    rfl

/-- Witness of C13 at a population with negative and extreme coordinates. -/
theorem GenerateLife106String_format_witness :
    sampleOrder.Nodup ∧
    ∃ lines : List (List Char),
      Split (GenerateLife106String sampleOrder) '\n' = headerLine :: lines ∧
      lines.length = sampleOrder.toFinset.card ∧
      (lines : Multiset (List Char)) =
        sampleOrder.toFinset.val.map
          (fun c => (Int.repr c.X).toList ++ ' ' :: (Int.repr c.Y).toList) ∧
      (GenerateLife106String sampleOrder).getLast? ≠ some '\n' ∧
      (sampleOrder.toFinset = ∅ → GenerateLife106String sampleOrder = headerLine) :=
  ⟨by decide, GenerateLife106String_format sampleOrder.toFinset sampleOrder (by decide) rfl⟩

/-- C16: white-space trimming. `ParseLife106String` gives the same result on a
text and on the text with its leading and trailing white space removed; hence
white space added before the header or after the last line does not change the
result. -/
theorem ParseLife106String_trim (t : List Char) :
    ParseLife106String t = ParseLife106String (TrimSpace t) ∧
    (∀ ws1 ws2 : List Char, (∀ c ∈ ws1, isSpace c = true) → (∀ c ∈ ws2, isSpace c = true) →
      ParseLife106String (ws1 ++ t ++ ws2) = ParseLife106String t) ∧
    TrimSpace paddedText = unpaddedText ∧
    ParseLife106String paddedText = ParseLife106String unpaddedText := by
  refine ⟨(Parse_TrimSpace t).symm, ?_, by decide, ?_⟩
  · intro ws1 ws2 h1 h2
    unfold ParseLife106String
    rw [TrimSpace_pad ws1 t ws2 h1 h2]
  · have h : TrimSpace paddedText = unpaddedText := by decide
    rw [← Parse_TrimSpace paddedText, h]

/-- Witness of C16: a header error is unchanged by blank lines around the text. -/
theorem ParseLife106String_trim_witness :
    ((∀ c ∈ [' ', '\n'], isSpace c = true) ∧ (∀ c ∈ ['\r', '\n', '\t'], isSpace c = true)) ∧
    ParseLife106String ([' ', '\n'] ++ badHeaderText ++ ['\r', '\n', '\t']) =
      ParseLife106String badHeaderText :=
  ⟨⟨by decide, by decide⟩,
    (ParseLife106String_trim badHeaderText).2.1 [' ', '\n'] ['\r', '\n', '\t']
      (by decide) (by decide)⟩

/-- C17: coordinate range on parse. Every cell returned by
`ParseLife106String` has both coordinates in `[MinInt64, MaxInt64]`; a token
made of decimal digits, with or without a sign, whose value is outside that
range is rejected by `Atoi`; and a body line with a rejected token is skipped,
neither wrapped nor clamped nor reported as an error. -/
theorem ParseLife106String_range :
    (∀ (text : List Char) (S : Finset Cell),
      ParseLife106String text = (some S, none) → ∀ c ∈ S, c.inRange) ∧
    (∀ (ds : List Char) (un : Nat), ds ≠ [] → parseDigits ds = some un →
      (9223372036854775808 ≤ un → Atoi ds = none ∧ Atoi ('+' :: ds) = none) ∧
      (9223372036854775808 < un → Atoi ('-' :: ds) = none)) ∧
    (∀ (acc : Finset Cell) (line : List Char),
      (∃ tok ∈ Fields line, Atoi tok = none) → parseLine acc line = acc) ∧
    ParseLife106String overflowText = (some overflowCells, none) ∧
    ParseLife106String "#Life 1.06\n9223372036854775808 0".toList = (some ∅, none) := by
  refine ⟨?_, ?_, parseLine_skip, by decide, by decide⟩
  · intro text S h c hc
    by_cases hh : (Split (TrimSpace text) '\n').head? = some headerLine
    · have hs : ∃ rest, Split (TrimSpace text) '\n' = headerLine :: rest := by
        revert hh
        cases Split (TrimSpace text) '\n' with
        | nil => intro hh; exact absurd hh (by simp)
        | cons first rest =>
          intro hh
          simp only [List.head?_cons, Option.some.injEq] at hh
          exact ⟨rest, by rw [hh]⟩
      obtain ⟨rest, hs⟩ := hs
      rw [Parse_of_header text rest hs] at h
      simp only [Prod.mk.injEq, Option.some.injEq, and_true] at h
      rw [← h] at hc
      exact inRange_of_mem_foldl_parseLine rest c hc
    · rw [Parse_of_not_header text hh] at h
      exact absurd h (by simp)
  · intro ds un hne h
    obtain ⟨h1, h2, h3⟩ := Atoi_digits ds un hne h
    constructor
    · intro hbig
      rw [h1, h2, if_pos hbig]
      exact ⟨rfl, rfl⟩
    · intro hbig
      rw [h3, if_pos hbig]

/-- Witness of C17 at a text with tokens at and just beyond both ends of the
range. -/
theorem ParseLife106String_range_witness :
    ParseLife106String overflowText = (some overflowCells, none) ∧
    (∀ c ∈ overflowCells, c.inRange) ∧
    (parseDigits "9223372036854775808".toList = some 9223372036854775808 ∧
      Atoi "9223372036854775808".toList = none) :=
  ⟨by decide,
    ParseLife106String_range.1 overflowText overflowCells (by decide),
    by decide,
    ((ParseLife106String_range.2.1 "9223372036854775808".toList 9223372036854775808
      (by decide) (by decide)).1 (by decide)).1⟩

/-- C20: CRLF header. For every input `#Life 1.06\r\n` followed by text that
contains at least one non-white-space character, the first line of the trimmed
text split on newlines is `#Life 1.06\r`, and `ParseLife106String` returns the
header error with a nil population. -/
theorem ParseLife106String_crlf (rest : List Char) (h : ∃ c ∈ rest, isSpace c = false) :
    (Split (TrimSpace (headerLine ++ '\r' :: '\n' :: rest)) '\n').head? =
      some (headerLine ++ ['\r']) ∧
    ParseLife106String (headerLine ++ '\r' :: '\n' :: rest) = (none, some headerError) := by
  obtain ⟨rest', hrest'⟩ := TrimSpace_keep_prefix '#'
    ['L', 'i', 'f', 'e', ' ', '1', '.', '0', '6', '\r', '\n'] rest (by decide) h
  have hshape : headerLine ++ '\r' :: '\n' :: rest =
      '#' :: ['L', 'i', 'f', 'e', ' ', '1', '.', '0', '6', '\r', '\n'] ++ rest := rfl
  have hshape' : '#' :: ['L', 'i', 'f', 'e', ' ', '1', '.', '0', '6', '\r', '\n'] ++ rest' =
      (headerLine ++ ['\r']) ++ '\n' :: rest' := rfl
  have hhead : (Split (TrimSpace (headerLine ++ '\r' :: '\n' :: rest)) '\n').head? =
      some (headerLine ++ ['\r']) := by
    rw [hshape, hrest', hshape']
    unfold Split
    rw [splitAux_append_sep '\n' (headerLine ++ ['\r']) rest' (by decide)]
    rfl
  refine ⟨hhead, Parse_of_not_header _ ?_⟩
  rw [hhead]
  decide

/-- Witness of C20 at the body `1 2` with CRLF line ends. -/
theorem ParseLife106String_crlf_witness :
    (∃ c ∈ crlfBody, isSpace c = false) ∧
    ParseLife106String (headerLine ++ '\r' :: '\n' :: crlfBody) = (none, some headerError) :=
  ⟨by decide, (ParseLife106String_crlf crlfBody (by decide)).2⟩


end Life
